import Mathlib

/-!
# Ternary search tree (`tst.go`)

A shallow embedding of the Go package `tst` and theorems about its
operations `Add`, `Get` and `MatchPrefix`.

* A Go `string` is a sequence of bytes: `List Byte` with `Byte = Fin 256`.
* A `*node` is either `nil` or points to an owned node: the inductive type `node`.
* A value of type `interface{}` is modelled by `Any`; the `nil` interface
  value stored in `node.Value` is `none`.
* A run-time panic is an explicit `Panic` result.
-/

namespace tst

/-- One byte of a Go string. -/
abbrev Byte := Fin 256

/-- The run-time failures of the package. -/
inductive Panic
  /-- An index expression `key[i]` with `i` outside `0 ≤ i < len(key)`. -/
  | indexOutOfRange
  /-- The explicit panic of `getKey`:
  "TST.Add must take either a string or an Item type". -/
  | unsupportedItemType
  /-- A field access through a nil `*node`. -/
  | nilDereference
  deriving DecidableEq

/-- A dynamic value passed to `Add` as `interface{}`. -/
inductive Any
  /-- A Go `string`. -/
  | str (s : List Byte)
  /-- A value whose type implements `Item`; `key` is what `Key()` returns,
  `payload` stands for the rest of the value (as `mockItem{key, Value}`). -/
  | item (key : List Byte) (payload : Int)
  /-- A value of any other dynamic type (for instance the `int` 4). -/
  | other (payload : Int)
  deriving DecidableEq

/-- The Go struct `node` behind a `*node`; `nil` is the nil pointer. -/
inductive node
  | nil
  | mk (C : Byte) (Value : Option Any) (Left Mid Right : node)
  deriving DecidableEq

/-- The Go struct `TST`. -/
structure TST where
  root : node
  deriving DecidableEq

/-- The function `New`: creates and returns a TST instance, `&TST{}`. -/
def New : TST := ⟨node.nil⟩

/-- Number of nodes of a tree. -/
def node.size : node → Nat
  | .nil => 0
  | .mk _ _ l m r => 1 + l.size + m.size + r.size

/-- The method `TST.getKey`: the key of an item, or the panic for an
unsupported type.  `Key()` is taken to be a pure function of the value. -/
def getKey (item : Any) : Except Panic (List Byte) :=
  match item with
  | .str val => .ok val
  | .item key _ => .ok key
  | .other _ => .error .unsupportedItemType

/-- The first statement of `add` after the index expression:
`if n == nil { n = &node{C: c} }`. -/
def orNew (n : node) (c : Byte) : node :=
  match n with
  | .nil => .mk c none .nil .nil .nil
  | .mk C V L M R => .mk C V L M R

/-- The method `TST.add`.  The index expression `c := key[i]` panics when `i` is out of
range; a field access through a nil `n` would panic as well (it cannot
happen after the nil check).  The assignments `n.Left = ...`, `n.Mid = ...`,
`n.Right = ...`, `n.Value = value` rebuild the node that is returned. -/
def add (n : node) (key : List Byte) (value : Any) (i : Nat) : Except Panic node :=
  match key[i]? with
  | none => .error .indexOutOfRange
  | some c =>
    match h : orNew n c with
    | .nil => .error .nilDereference
    | .mk C V L M R =>
      if hlt : c < C then
        (add L key value i).map fun l => .mk C V l M R
      else if hgt : c > C then
        (add R key value i).map fun r => .mk C V L M r
      else if hi : i < key.length - 1 then
        (add M key value (i + 1)).map fun m => .mk C V L m R
      else
        .ok (.mk C (some value) L M R)
termination_by (key.length - i, n.size)
decreasing_by
  · have hn : n = .mk C V L M R := by
      cases n with
      | nil => simp only [orNew, node.mk.injEq] at h; exact absurd h.1 (ne_of_lt hlt)
      | mk => simpa only [orNew] using h
    rw [hn]
    exact Prod.Lex.right _ (by simp only [node.size]; omega)
  · have hn : n = .mk C V L M R := by
      cases n with
      | nil => simp only [orNew, node.mk.injEq] at h; exact absurd h.1 (ne_of_gt hgt)
      | mk => simpa only [orNew] using h
    rw [hn]
    exact Prod.Lex.right _ (by simp only [node.size]; omega)
  · exact Prod.Lex.left _ _ (by omega)

/-- The method `TST.Add`: `tree.root = tree.add(tree.root, tree.getKey(item), item, 0)`.
The result is the tree after the call together with the panic, if any; the
assignment to `tree.root` only happens when both calls return. -/
def Add (tree : TST) (item : Any) : TST × Option Panic :=
  match getKey item with
  | .error e => (tree, some e)
  | .ok key =>
    match add tree.root key item 0 with
    | .error e => (tree, some e)
    | .ok n => (⟨n⟩, none)

/-- The method `TST.get`.  The guard `n == nil || len(key) == 0` returns `n`
itself; the index expression `c := key[i]` panics when `i` is out of range. -/
def get (n : node) (key : List Byte) (i : Nat) : Except Panic node :=
  match n with
  | .nil => .ok .nil
  | .mk C V L M R =>
    if key.length = 0 then .ok (.mk C V L M R)
    else
      match key[i]? with
      | none => .error .indexOutOfRange
      | some c =>
        if c < C then get L key i
        else if c > C then get R key i
        else if i < key.length - 1 then get M key (i + 1)
        else .ok (.mk C V L M R)

/-- The method `TST.Get`: the value of the node found by `get`, `nil` when there is none. -/
def Get (tree : TST) (key : List Byte) : Except Panic (Option Any) :=
  match get tree.root key 0 with
  | .error e => .error e
  | .ok .nil => .ok none
  | .ok (.mk _ V _ _ _) => .ok V

/-- The conversion `string(b)` of a byte: the UTF-8 encoding of the code
point `b`, one byte below 0x80 and two bytes from 0x80 on. -/
def stringOfByte (b : Byte) : List Byte :=
  if b.val < 128 then [b]
  else [Fin.ofNat (192 + b.val / 64), Fin.ofNat (128 + b.val % 64)]

/-- The method `TST.matchPrefix`; the slice behind `queue *[]interface{}` is passed in
and the slice after the call is returned. -/
def matchPrefix (n : node) (pfx : List Byte) (queue : List Any) : List Any :=
  match n with
  | .nil => queue
  | .mk C V L M R =>
    let queue := match V with
      | some v => queue ++ [v]
      | none => queue
    let queue := matchPrefix L pfx queue
    let queue := matchPrefix M (pfx ++ stringOfByte C) queue
    matchPrefix R pfx queue

/-- The method `TST.MatchPrefix`.  A panic of `get` would propagate. -/
def MatchPrefix (tree : TST) (pfx : List Byte) : Except Panic (List Any) :=
  let queue : List Any := []
  if pfx = [] then .ok queue
  else
    match get tree.root pfx 0 with
    | .error e => .error e
    | .ok .nil => .ok queue
    | .ok (.mk _ V _ M _) =>
      let queue := match V with
        | some v => queue ++ [v]
        | none => queue
      .ok (matchPrefix M pfx queue)

/-- A caller loop `for _, item := range items { tree.Add(item) }` (as in the
tests), a panicking call being recovered from and the loop carrying on. -/
def AddAll (tree : TST) (items : List Any) : TST :=
  items.foldl (fun t item => (Add t item).1) tree

/-- The trees reachable from `New()` by `Add` calls. -/
inductive Reachable : TST → Prop
  | new : Reachable New
  | add (tree : TST) (item : Any) : Reachable tree → Reachable (Add tree item).1

/-! ## Auxiliary definitions used in the proofs -/

/-- The field `n.Value`, `none` for a nil `n`: what `Get` returns for the
node `n` found by `get`. -/
def node.Value : node → Option Any
  | .nil => none
  | .mk _ V _ _ _ => V

/-- The field `n.Mid`, `nil` for a nil `n`. -/
def node.Mid : node → node
  | .nil => .nil
  | .mk _ _ _ M _ => M

/-- The nodes `add` creates below a nil link for the remaining bytes
`c :: rest` of the key: one node per byte, linked by `Mid`, the last one
holding the value. -/
def chain (c : Byte) (rest : List Byte) (value : Any) : node :=
  match rest with
  | [] => .mk c (some value) .nil .nil .nil
  | c' :: rest' => .mk c none .nil (chain c' rest' value) .nil

/-- The traversal of `add` over the remaining bytes `c :: rest` of the key
(`c = key[i]`, `rest = key[i+1:]`). -/
def ins (n : node) (c : Byte) (rest : List Byte) (value : Any) : node :=
  match n with
  | .nil => chain c rest value
  | .mk C V L M R =>
    if c < C then .mk C V (ins L c rest value) M R
    else if c > C then .mk C V L M (ins R c rest value)
    else
      match rest with
      | [] => .mk C (some value) L M R
      | c' :: rest' => .mk C V L (ins M c' rest' value) R

/-- The traversal of `get` over the remaining bytes `c :: rest` of the key. -/
def find (n : node) (c : Byte) (rest : List Byte) : node :=
  match n with
  | .nil => .nil
  | .mk C V L M R =>
    if c < C then find L c rest
    else if c > C then find R c rest
    else
      match rest with
      | [] => .mk C V L M R
      | c' :: rest' => find M c' rest'

/-- What one `Add(item)` does to the root: `ins` when the key of the item is
non-empty, nothing when `Add` panics. -/
def insItem (n : node) (item : Any) : node :=
  match getKey item with
  | .ok (c :: rest) => ins n c rest item
  | _ => n

/-- The key `getKey` resolves for an item, `none` when it panics. -/
def keyOf (item : Any) : Option (List Byte) :=
  match getKey item with
  | .ok key => some key
  | .error _ => none

/-- The item is a non-empty string or an `Item` whose key is non-empty. -/
def hasNonEmptyKey (item : Any) : Bool :=
  match getKey item with
  | .ok (_ :: _) => true
  | _ => false

/-- The item of the latest call among `Add(items[0])`, `Add(items[1])`, ...
whose key is `k`. -/
def latest (items : List Any) (k : List Byte) : Option Any :=
  match items with
  | [] => none
  | item :: rest =>
    match latest rest k with
    | some v => some v
    | none => if keyOf item = some k then some item else none

/-- The tree without its values: the nodes, their characters and their
left/mid/right links. -/
def eraseValues : node → node
  | .nil => .nil
  | .mk C _ L M R => .mk C none (eraseValues L) (eraseValues M) (eraseValues R)

/-- Overwrite in place, following the words of the specification: `n'` has
the nodes, characters and links of `n` and differs from it only in the value
of the node where the traversal for `key` (from index `i`) terminates, which
is `value` in `n'`. -/
def overwrittenAt (n n' : node) (key : List Byte) (i : Nat) (value : Any) : Bool :=
  match n, n' with
  | .mk C V L M R, .mk C' V' L' M' R' =>
    match key[i]? with
    | none => false
    | some c =>
      if c < C then
        decide (C' = C ∧ V' = V ∧ M' = M ∧ R' = R) && overwrittenAt L L' key i value
      else if c > C then
        decide (C' = C ∧ V' = V ∧ L' = L ∧ M' = M) && overwrittenAt R R' key i value
      else if i < key.length - 1 then
        decide (C' = C ∧ V' = V ∧ L' = L ∧ R' = R) && overwrittenAt M M' key (i + 1) value
      else
        decide (C' = C ∧ V' = some value ∧ L' = L ∧ M' = M ∧ R' = R)
  | _, _ => false

/-- Every node of the sibling tree of `n` (the nodes linked from `n` by
`Left` and `Right` only) has a character satisfying `p`. -/
def sibAll (p : Byte → Bool) : node → Bool
  | .nil => true
  | .mk C _ L _ R => p C && sibAll p L && sibAll p R

/-- The sibling ordering invariant: below every node, the sibling tree under
`Left` holds smaller characters only and the one under `Right` greater
characters only. -/
def Ordered : node → Bool
  | .nil => true
  | .mk C _ L M R =>
    sibAll (fun x => decide (x < C)) L && sibAll (fun x => decide (C < x)) R &&
      Ordered L && Ordered M && Ordered R

/-- The values held in the subtree of `n`, in the order `matchPrefix` visits
them, each with the bytes of its path from `n` (the character of a node is
added when going down its `Mid` link, and for the node itself). -/
def entries : node → List (List Byte × Any)
  | .nil => []
  | .mk C V L M R =>
    (V.toList.map fun v => ([C], v)) ++ entries L ++
      ((entries M).map fun e => (C :: e.1, e.2)) ++ entries R

/-- The values `MatchPrefix` collects from the node `n` it found: the value
of `n` itself (path `[]`) and those below `n.Mid`. -/
def entriesAt (n : node) : List (List Byte × Any) :=
  (n.Value.toList.map fun v => ([], v)) ++ entries n.Mid

/-- The distinct keys of the calls `Add(items[0])`, `Add(items[1])`, ... -/
def storedKeys (items : List Any) : List (List Byte) :=
  (items.filterMap keyOf).dedup

/-- The walk of the traversal-order claim, in its words: `walk(nil) = []` and
`walk(n) = [n.Value if present] ++ walk(n.Left) ++ walk(n.Mid) ++ walk(n.Right)`. -/
def walk : node → List Any
  | .nil => []
  | .mk _ V L M R => V.toList ++ walk L ++ walk M ++ walk R

/-- Every node of the tree with the bytes of its path from `n`: the
characters of the nodes left through their `Mid` link, then its own. -/
def nodesAt : node → List (List Byte × node)
  | .nil => []
  | .mk C V L M R =>
    ([C], .mk C V L M R) :: (nodesAt L ++ ((nodesAt M).map fun e => (C :: e.1, e.2)) ++ nodesAt R)

/-- The characters of the sibling tree of `n` (the nodes linked from `n` by
`Left` and `Right` only), from left to right. -/
def sibChars : node → List Byte
  | .nil => []
  | .mk C _ L _ R => sibChars L ++ C :: sibChars R

/-- No dead branches: every node whose `Mid` link is nil carries a value. -/
def noDead : node → Bool
  | .nil => true
  | .mk _ V L M R =>
    (match V, M with
      | none, .nil => false
      | _, _ => true) && noDead L && noDead M && noDead R

/-- The `get` traversal from the root finds a node for the key. -/
def found (n : node) (key : List Byte) : Bool :=
  match get n key 0 with
  | .ok (.mk _ _ _ _ _) => true
  | _ => false

/-- Every node of `n` is a node of `n'` at the same position (the same
sequence of `Left`, `Mid` and `Right` links from the root) with the same
character. -/
def embeds : node → node → Bool
  | .nil, _ => true
  | .mk _ _ _ _ _, .nil => false
  | .mk C _ L M R, .mk C' _ L' M' R' =>
    decide (C = C') && embeds L L' && embeds M M' && embeds R R'

/-- The number of leading bytes of `c :: rest` whose path exists below `n`:
the nodes the traversal of `add` walks through by an equal character before
it reaches a nil link or the end of the key. -/
def matchLen (n : node) (c : Byte) (rest : List Byte) : Nat :=
  match n with
  | .nil => 0
  | .mk C _ L M R =>
    if c < C then matchLen L c rest
    else if c > C then matchLen R c rest
    else
      match rest with
      | [] => 1
      | c' :: rest' => 1 + matchLen M c' rest'

/-- The method `TST.add` with the depth of its recursion bounded by `fuel`:
the same body, `none` when the bound is used up before the call returns. -/
def addFuel (fuel : Nat) (n : node) (key : List Byte) (value : Any) (i : Nat) :
    Option (Except Panic node) :=
  match fuel with
  | 0 => none
  | fuel + 1 =>
    match key[i]? with
    | none => some (.error .indexOutOfRange)
    | some c =>
      match orNew n c with
      | .nil => some (.error .nilDereference)
      | .mk C V L M R =>
        if c < C then
          (addFuel fuel L key value i).map (Except.map fun l => .mk C V l M R)
        else if c > C then
          (addFuel fuel R key value i).map (Except.map fun r => .mk C V L M r)
        else if i < key.length - 1 then
          (addFuel fuel M key value (i + 1)).map (Except.map fun m => .mk C V L m R)
        else
          some (.ok (.mk C (some value) L M R))

/-- The recursive call made by the activation `add(n, key, value, i)`, if
any: the node and the index it is made on. -/
def addNext (n : node) (key : List Byte) (i : Nat) : Option (node × Nat) :=
  match key[i]? with
  | none => none
  | some c =>
    match orNew n c with
    | .nil => none
    | .mk C _ L M R =>
      if c < C then some (L, i)
      else if c > C then some (R, i)
      else if i < key.length - 1 then some (M, i + 1)
      else none

/-- The method `TST.get` with the depth of its recursion bounded by `fuel`. -/
def getFuel (fuel : Nat) (n : node) (key : List Byte) (i : Nat) : Option (Except Panic node) :=
  match fuel with
  | 0 => none
  | fuel + 1 =>
    match n with
    | .nil => some (.ok .nil)
    | .mk C V L M R =>
      if key.length = 0 then some (.ok (.mk C V L M R))
      else
        match key[i]? with
        | none => some (.error .indexOutOfRange)
        | some c =>
          if c < C then getFuel fuel L key i
          else if c > C then getFuel fuel R key i
          else if i < key.length - 1 then getFuel fuel M key (i + 1)
          else some (.ok (.mk C V L M R))

/-- The method `TST.matchPrefix` with the depth of its recursion bounded by
`fuel`. -/
def matchPrefixFuel (fuel : Nat) (n : node) (pfx : List Byte) (queue : List Any) :
    Option (List Any) :=
  match fuel with
  | 0 => none
  | fuel + 1 =>
    match n with
    | .nil => some queue
    | .mk C V L M R =>
      let queue := match V with
        | some v => queue ++ [v]
        | none => queue
      (matchPrefixFuel fuel L pfx queue).bind fun queue =>
        (matchPrefixFuel fuel M (pfx ++ stringOfByte C) queue).bind fun queue =>
          matchPrefixFuel fuel R pfx queue

/-- The comparison `a < b` of two Go strings: bytewise lexicographic order. -/
def strLess : List Byte → List Byte → Bool
  | [], [] => false
  | [], _ :: _ => true
  | _ :: _, [] => false
  | a :: as, b :: bs => if a < b then true else if b < a then false else strLess as bs

/-- No node of the tree has a `Left` link. -/
def noLeft : node → Bool
  | .nil => true
  | .mk _ _ L M R =>
    (match L with
      | .nil => true
      | .mk _ _ _ _ _ => false) && noLeft M && noLeft R

/-- No node that carries a value has a `Left` link: the nodes whose value
`matchPrefix` appends before it visits smaller keys. -/
def noValueLeft : node → Bool
  | .nil => true
  | .mk _ V L M R =>
    (match V, L with
      | some _, .mk _ _ _ _ _ => false
      | _, _ => true) && noValueLeft L && noValueLeft M && noValueLeft R

end tst

namespace tst

/-! ## `add` and `get` as traversals over the remaining key -/

theorem chain_eq_ins_nil (c : Byte) (rest : List Byte) (value : Any) :
    chain c rest value = ins .nil c rest value := by
  simp [ins]

theorem add_eq_ins_aux (key : List Byte) (value : Any) :
    ∀ (m : Nat) (n : node) (i : Nat) (hi : i < key.length), key.length - i = m →
      add n key value i = .ok (ins n (key.get ⟨i, hi⟩) (key.drop (i + 1)) value) := by
  intro m
  induction m with
  | zero => intro n i hi hm; omega
  | succ m ihm =>
    intro n
    induction n with
    | nil =>
      intro i hi hm
      rw [add]
      simp only [List.getElem?_eq_getElem hi, orNew, lt_self_iff_false, gt_iff_lt, dite_false]
      by_cases h1 : i < key.length - 1
      · have hi' : i + 1 < key.length := by omega
        rw [dif_pos h1, ihm .nil (i + 1) hi' (by omega)]
        rw [List.drop_eq_getElem_cons hi']
        simp [Except.map, ins, chain]
      · have hd : key.drop (i + 1) = [] := List.drop_eq_nil_of_le (by omega)
        rw [dif_neg h1]
        simp [ins, chain, hd]
    | mk C V L M R ihL _ ihR =>
      intro i hi hm
      rw [add]
      simp only [List.getElem?_eq_getElem hi, orNew, gt_iff_lt]
      by_cases h1 : key[i] < C
      · rw [dif_pos h1, ihL i hi hm]
        simp [Except.map, ins, h1]
      · rw [dif_neg h1]
        by_cases h2 : C < key[i]
        · rw [dif_pos h2, ihR i hi hm]
          simp [Except.map, ins, h1, h2]
        · rw [dif_neg h2]
          by_cases h3 : i < key.length - 1
          · have hi' : i + 1 < key.length := by omega
            rw [dif_pos h3, ihm M (i + 1) hi' (by omega)]
            rw [List.drop_eq_getElem_cons hi']
            simp [Except.map, ins, h1, h2]
          · have hd : key.drop (i + 1) = [] := List.drop_eq_nil_of_le (by omega)
            rw [dif_neg h3]
            simp [ins, h1, h2, hd]

/-- On a key `c :: rest`, `add` from index 0 returns normally and is `ins`. -/
theorem add_cons (n : node) (c : Byte) (rest : List Byte) (value : Any) :
    add n (c :: rest) value 0 = .ok (ins n c rest value) := by
  have h := add_eq_ins_aux (c :: rest) value (c :: rest).length n 0 (by simp) (by simp)
  simpa using h

/-- On the zero-length key, `add` panics at `key[0]`. -/
theorem add_nil_key (n : node) (value : Any) :
    add n [] value 0 = .error .indexOutOfRange := by
  rw [add]; simp

theorem get_eq_find_aux (key : List Byte) :
    ∀ (n : node) (i : Nat) (hi : i < key.length),
      get n key i = .ok (find n (key.get ⟨i, hi⟩) (key.drop (i + 1))) := by
  intro n
  induction n with
  | nil => intro i hi; simp [get, find]
  | mk C V L M R ihL ihM ihR =>
    intro i hi
    have hlen : key.length ≠ 0 := by omega
    rw [get]
    simp only [hlen, if_false, List.getElem?_eq_getElem hi, gt_iff_lt]
    by_cases h1 : key[i] < C
    · rw [if_pos h1, ihL i hi]; simp [find, h1]
    · rw [if_neg h1]
      by_cases h2 : C < key[i]
      · rw [if_pos h2, ihR i hi]; simp [find, h1, h2]
      · rw [if_neg h2]
        by_cases h3 : i < key.length - 1
        · have hi' : i + 1 < key.length := by omega
          rw [if_pos h3, ihM (i + 1) hi']
          rw [List.drop_eq_getElem_cons hi']
          simp [find, h1, h2]
        · have hd : key.drop (i + 1) = [] := List.drop_eq_nil_of_le (by omega)
          rw [if_neg h3]
          simp [find, h1, h2, hd]

/-- On a key `c :: rest`, `get` from index 0 returns normally and is `find`. -/
theorem get_cons (n : node) (c : Byte) (rest : List Byte) :
    get n (c :: rest) 0 = .ok (find n c rest) := by
  have h := get_eq_find_aux (c :: rest) n 0 (by simp)
  simpa using h

/-- On the zero-length key, `get` returns the node it was given. -/
theorem get_nil_key (n : node) (i : Nat) : get n [] i = .ok n := by
  cases n <;> simp [get]

/-! ## The public methods in terms of the traversals -/

theorem Add_cons (tree : TST) (item : Any) (c : Byte) (rest : List Byte)
    (hkey : getKey item = .ok (c :: rest)) :
    Add tree item = (⟨ins tree.root c rest item⟩, none) := by
  simp [Add, hkey, add_cons]

theorem Add_nil_key (tree : TST) (item : Any) (hkey : getKey item = .ok []) :
    Add tree item = (tree, some .indexOutOfRange) := by
  simp [Add, hkey, add_nil_key]

theorem Add_error (tree : TST) (item : Any) (e : Panic) (hkey : getKey item = .error e) :
    Add tree item = (tree, some e) := by
  simp [Add, hkey]

theorem Get_cons (tree : TST) (c : Byte) (rest : List Byte) :
    Get tree (c :: rest) = .ok (find tree.root c rest).Value := by
  simp only [Get, get_cons]
  cases find tree.root c rest <;> rfl

theorem Get_nil_key (tree : TST) : Get tree [] = .ok tree.root.Value := by
  simp only [Get, get_nil_key]
  cases tree.root <;> rfl

/-! ## Lookup after insertion -/

theorem eq_of_not_lt_of_not_gt {c C : Byte} (h1 : ¬ c < C) (h2 : ¬ C < c) : c = C :=
  le_antisymm (not_lt.1 h2) (not_lt.1 h1)

theorem find_chain_same (c : Byte) (rest : List Byte) (value : Any) :
    (find (chain c rest value) c rest).Value = some value := by
  induction rest generalizing c with
  | nil => simp [chain, find, node.Value]
  | cons d ds ih => simp [chain, find, ih]

theorem find_chain_other (c : Byte) (rest : List Byte) (value : Any) (c' : Byte)
    (rest' : List Byte) (hne : c' :: rest' ≠ c :: rest) :
    (find (chain c rest value) c' rest').Value = none := by
  induction rest generalizing c c' rest' with
  | nil =>
    simp only [chain, find]
    split_ifs with h1 h2
    · rfl
    · rfl
    · have hc := eq_of_not_lt_of_not_gt h1 h2
      subst hc
      cases rest' with
      | nil => exact absurd rfl hne
      | cons d' ds' => simp [find, node.Value]
  | cons d ds ih =>
    simp only [chain, find]
    split_ifs with h1 h2
    · rfl
    · rfl
    · have hc := eq_of_not_lt_of_not_gt h1 h2
      subst hc
      cases rest' with
      | nil => simp [node.Value]
      | cons d' ds' =>
        simp only
        apply ih
        intro h
        exact hne (by rw [h])

/-- After `ins` of `c :: rest` the traversal for `c :: rest` ends at a node
holding the value. -/
theorem find_ins_same (n : node) (c : Byte) (rest : List Byte) (value : Any) :
    (find (ins n c rest value) c rest).Value = some value := by
  induction n generalizing c rest with
  | nil => simpa [ins] using find_chain_same c rest value
  | mk C V L M R ihL ihM ihR =>
    simp only [ins]
    split_ifs with h1 h2
    · simpa [find, h1] using ihL c rest
    · simpa [find, h1, h2] using ihR c rest
    · cases rest with
      | nil => simp [find, h1, h2, node.Value]
      | cons d ds => simpa [find, h1, h2] using ihM d ds

/-- After `ins` of `c :: rest` the traversal for another non-empty key ends
at a node with the value it had before. -/
theorem find_ins_other (n : node) (c : Byte) (rest : List Byte) (value : Any) (c' : Byte)
    (rest' : List Byte) (hne : c' :: rest' ≠ c :: rest) :
    (find (ins n c rest value) c' rest').Value = (find n c' rest').Value := by
  induction n generalizing c rest c' rest' with
  | nil => simpa [ins, find, node.Value] using find_chain_other c rest value c' rest' hne
  | mk C V L M R ihL ihM ihR =>
    simp only [ins]
    split_ifs with h1 h2
    · simp only [find]
      split_ifs with h3 h4
      · exact ihL c rest c' rest' hne
      · rfl
      · cases rest' <;> rfl
    · simp only [find]
      split_ifs with h3 h4
      · rfl
      · exact ihR c rest c' rest' hne
      · cases rest' <;> rfl
    · have hc := eq_of_not_lt_of_not_gt h1 h2
      subst hc
      cases rest with
      | nil =>
        simp only [find]
        split_ifs with h3 h4
        · rfl
        · rfl
        · have hc' := eq_of_not_lt_of_not_gt h3 h4
          subst hc'
          cases rest' with
          | nil => exact absurd rfl hne
          | cons d' ds' => rfl
      | cons d ds =>
        simp only [find]
        split_ifs with h3 h4
        · rfl
        · rfl
        · have hc' := eq_of_not_lt_of_not_gt h3 h4
          subst hc'
          cases rest' with
          | nil => rfl
          | cons d' ds' =>
            simp only
            apply ihM
            intro h
            exact hne (by rw [h])

theorem Add_fst (tree : TST) (item : Any) : (Add tree item).1 = ⟨insItem tree.root item⟩ := by
  cases hk : getKey item with
  | error e => simp [Add_error tree item e hk, insItem, hk]
  | ok key =>
    cases key with
    | nil => simp [Add_nil_key tree item hk, insItem, hk]
    | cons c rest => simp [Add_cons tree item c rest hk, insItem, hk]

theorem AddAll_root (tree : TST) (items : List Any) :
    AddAll tree items = ⟨items.foldl insItem tree.root⟩ := by
  induction items generalizing tree with
  | nil => rfl
  | cons item rest ih =>
    have h := ih (Add tree item).1
    simp only [AddAll, List.foldl_cons] at h ⊢
    rw [h, Add_fst]

theorem AddAll_cons (tree : TST) (item : Any) (rest : List Any) :
    AddAll tree (item :: rest) = AddAll (Add tree item).1 rest := rfl

theorem Get_Add_same (tree : TST) (item : Any) (key : List Byte)
    (hkey : getKey item = .ok key) (hne : key ≠ []) :
    Get (Add tree item).1 key = .ok (some item) := by
  cases key with
  | nil => exact absurd rfl hne
  | cons c rest =>
    rw [Add_cons tree item c rest hkey, Get_cons]
    simp [find_ins_same]

theorem Get_Add_other (tree : TST) (item : Any) (q : List Byte) (hq : q ≠ [])
    (hne : getKey item ≠ .ok q) : Get (Add tree item).1 q = Get tree q := by
  cases q with
  | nil => exact absurd rfl hq
  | cons c' rest' =>
    cases hk : getKey item with
    | error e => rw [Add_error tree item e hk]
    | ok key =>
      cases key with
      | nil => rw [Add_nil_key tree item hk]
      | cons c rest =>
        rw [Add_cons tree item c rest hk, Get_cons, Get_cons]
        have hne' : c' :: rest' ≠ c :: rest := by
          intro h
          exact hne (by rw [hk, h])
        simp [find_ins_other _ c rest item c' rest' hne']

theorem keyOf_eq_some (item : Any) (k : List Byte) : keyOf item = some k ↔ getKey item = .ok k := by
  unfold keyOf
  cases getKey item <;> simp

/-- What `Get` of a non-empty key returns after a sequence of `Add` calls. -/
theorem Get_AddAll (items : List Any) (tree : TST) (q : List Byte) (hq : q ≠ []) :
    Get (AddAll tree items) q =
      match latest items q with
      | some v => .ok (some v)
      | none => Get tree q := by
  induction items generalizing tree with
  | nil => rfl
  | cons item rest ih =>
    rw [AddAll_cons, ih, latest]
    cases latest rest q with
    | some v => rfl
    | none =>
      simp only
      by_cases hk : keyOf item = some q
      · rw [if_pos hk]
        exact Get_Add_same tree item q ((keyOf_eq_some item q).1 hk) hq
      · rw [if_neg hk]
        exact Get_Add_other tree item q hq (fun h => hk ((keyOf_eq_some item q).2 h))

theorem Get_New (q : List Byte) : Get New q = .ok none := by
  cases q <;> rfl

theorem latest_eq_none (items : List Any) (q : List Byte) :
    latest items q = none ↔ ∀ item ∈ items, getKey item ≠ .ok q := by
  induction items with
  | nil => simp [latest]
  | cons item rest ih =>
    rw [latest]
    cases h : latest rest q with
    | some v =>
      rw [h] at ih
      simp only [List.mem_cons, forall_eq_or_imp]
      constructor
      · intro h0
        exact absurd h0 (by simp)
      · intro hall
        exact ih.2 hall.2
    | none =>
      rw [h] at ih
      have ih' := ih.1 rfl
      simp only [List.mem_cons, forall_eq_or_imp]
      by_cases hk : keyOf item = some q
      · simp [hk, (keyOf_eq_some item q).1 hk]
      · simp only [hk, if_false, true_iff]
        exact ⟨fun h' => hk ((keyOf_eq_some item q).2 h'), ih'⟩

theorem latest_getKey (items : List Any) (q : List Byte) (v : Any) (h : latest items q = some v) :
    getKey v = .ok q ∧ v ∈ items := by
  induction items with
  | nil => simp [latest] at h
  | cons item rest ih =>
    rw [latest] at h
    cases h' : latest rest q with
    | some w =>
      rw [h'] at h
      simp only [Option.some.injEq] at h
      subst h
      exact ⟨(ih h').1, List.mem_cons_of_mem _ (ih h').2⟩
    | none =>
      rw [h'] at h
      simp only at h
      by_cases hk : keyOf item = some q
      · rw [if_pos hk] at h
        simp only [Option.some.injEq] at h
        subst h
        exact ⟨(keyOf_eq_some _ q).1 hk, List.mem_cons_self _ _⟩
      · rw [if_neg hk] at h
        exact absurd h (by simp)

/-! ## Overwriting a key whose path exists -/

theorem find_ne_nil_of_Value {n : node} {v : Any} (h : n.Value = some v) : n ≠ .nil := by
  intro hn
  rw [hn] at h
  exact absurd h (by simp [node.Value])

/-- When the path of `c :: rest` exists, `ins` creates no node and changes no
character or link. -/
theorem ins_of_find (n : node) (c : Byte) (rest : List Byte) (value : Any)
    (h : find n c rest ≠ .nil) :
    eraseValues (ins n c rest value) = eraseValues n ∧ (ins n c rest value).size = n.size := by
  induction n generalizing c rest with
  | nil => exact absurd rfl h
  | mk C V L M R ihL ihM ihR =>
    simp only [find] at h
    simp only [ins]
    split_ifs with h1 h2
    · rw [if_pos h1] at h
      simp [eraseValues, node.size, ihL c rest h]
    · rw [if_neg h1, if_pos h2] at h
      simp [eraseValues, node.size, ihR c rest h]
    · rw [if_neg h1, if_neg h2] at h
      cases rest with
      | nil => simp [eraseValues, node.size]
      | cons d ds => simp [eraseValues, node.size, ihM d ds h]

theorem overwrittenAt_ins (key : List Byte) (value : Any) (n : node) :
    ∀ (i : Nat) (hi : i < key.length),
      find n (key.get ⟨i, hi⟩) (key.drop (i + 1)) ≠ .nil →
      overwrittenAt n (ins n (key.get ⟨i, hi⟩) (key.drop (i + 1)) value) key i value = true := by
  induction n with
  | nil => intro i hi h; exact absurd rfl h
  | mk C V L M R ihL ihM ihR =>
    intro i hi h
    simp only [find, List.get_eq_getElem] at h
    simp only [ins, List.get_eq_getElem]
    by_cases h1 : key[i] < C
    · rw [if_pos h1] at h
      rw [if_pos h1, overwrittenAt]
      simp only [List.getElem?_eq_getElem hi, if_pos h1]
      simpa using ihL i hi h
    · rw [if_neg h1] at h
      rw [if_neg h1]
      by_cases h2 : key[i] > C
      · rw [if_pos h2] at h
        rw [if_pos h2, overwrittenAt]
        simp only [List.getElem?_eq_getElem hi, if_neg h1, if_pos h2]
        simpa using ihR i hi h
      · rw [if_neg h2] at h
        rw [if_neg h2]
        by_cases h3 : i < key.length - 1
        · have hi' : i + 1 < key.length := by omega
          rw [List.drop_eq_getElem_cons hi'] at h ⊢
          simp only at h ⊢
          rw [overwrittenAt]
          simp only [List.getElem?_eq_getElem hi, if_neg h1, if_neg h2, if_pos h3]
          simpa using ihM (i + 1) hi' h
        · have hd : key.drop (i + 1) = [] := List.drop_eq_nil_of_le (by omega)
          rw [hd]
          simp only
          rw [overwrittenAt]
          simp [List.getElem?_eq_getElem hi, if_neg h1, if_neg h2, if_neg h3]

/-! ## `MatchPrefix` as a list of entries -/

theorem matchPrefix_eq (n : node) (pfx : List Byte) (queue : List Any) :
    matchPrefix n pfx queue = queue ++ (entries n).map Prod.snd := by
  induction n generalizing pfx queue with
  | nil => simp [matchPrefix, entries]
  | mk C V L M R ihL ihM ihR =>
    simp only [matchPrefix, entries, ihL, ihM, ihR]
    cases V <;> simp [Function.comp_def]

theorem MatchPrefix_cons (tree : TST) (c : Byte) (rest : List Byte) :
    MatchPrefix tree (c :: rest) = .ok ((entriesAt (find tree.root c rest)).map Prod.snd) := by
  simp only [MatchPrefix, get_cons]
  cases find tree.root c rest with
  | nil => simp [entriesAt, node.Value, node.Mid, entries]
  | mk C V L M R =>
    cases V <;> simp [entriesAt, node.Value, node.Mid, matchPrefix_eq, Function.comp_def]

/-- The traversal for `c :: rest ++ d :: ds` continues the one for
`c :: rest` below the `Mid` link of the node found. -/
theorem find_append (n : node) (c : Byte) (rest : List Byte) (d : Byte) (ds : List Byte) :
    find n c (rest ++ d :: ds) = find (find n c rest).Mid d ds := by
  induction n generalizing c rest with
  | nil => simp [find, node.Mid]
  | mk C V L M R ihL ihM ihR =>
    simp only [find]
    split_ifs with h1 h2
    · exact ihL c rest
    · exact ihR c rest
    · cases rest with
      | nil => simp [node.Mid]
      | cons e es => simpa using ihM e es

theorem mem_entries_of_find (n : node) (c : Byte) (rest : List Byte) (v : Any)
    (h : (find n c rest).Value = some v) : (c :: rest, v) ∈ entries n := by
  induction n generalizing c rest with
  | nil => simp [find, node.Value] at h
  | mk C V L M R ihL ihM ihR =>
    simp only [find] at h
    simp only [entries, List.mem_append, List.mem_map]
    split_ifs at h with h1 h2
    · exact Or.inl (Or.inl (Or.inr (ihL c rest h)))
    · exact Or.inr (ihR c rest h)
    · have hc := eq_of_not_lt_of_not_gt h1 h2
      subst hc
      cases rest with
      | nil =>
        simp only [node.Value] at h
        exact Or.inl (Or.inl (Or.inl ⟨v, by simp [h], rfl⟩))
      | cons d ds =>
        exact Or.inl (Or.inr ⟨(d :: ds, v), ihM d ds h, rfl⟩)

theorem sibAll_head (p : Byte → Bool) (n : node) (h : sibAll p n = true) (k : List Byte)
    (v : Any) (hm : (k, v) ∈ entries n) : ∃ c rest, k = c :: rest ∧ p c = true := by
  induction n with
  | nil => simp [entries] at hm
  | mk C V L M R ihL _ ihR =>
    simp only [sibAll, Bool.and_eq_true] at h
    simp only [entries, List.mem_append, List.mem_map] at hm
    rcases hm with ((hm | hm) | hm) | hm
    · obtain ⟨w, _, hw⟩ := hm
      injection hw with hk _
      exact ⟨C, [], hk.symm, h.1.1⟩
    · exact ihL h.1.2 hm
    · obtain ⟨e, _, he⟩ := hm
      injection he with hk _
      exact ⟨C, e.1, hk.symm, h.1.1⟩
    · exact ihR h.2 hm

theorem find_of_mem_entries (n : node) (ho : Ordered n = true) (k : List Byte) (v : Any)
    (hm : (k, v) ∈ entries n) : ∃ c rest, k = c :: rest ∧ (find n c rest).Value = some v := by
  induction n generalizing k with
  | nil => simp [entries] at hm
  | mk C V L M R ihL ihM ihR =>
    simp only [Ordered, Bool.and_eq_true] at ho
    obtain ⟨⟨⟨⟨hsl, hsr⟩, hoL⟩, hoM⟩, hoR⟩ := ho
    simp only [entries, List.mem_append, List.mem_map] at hm
    rcases hm with ((hm | hm) | hm) | hm
    · obtain ⟨w, hw, he⟩ := hm
      injection he with hk hv
      subst hv
      refine ⟨C, [], hk.symm, ?_⟩
      simp only [Option.mem_toList, Option.mem_def] at hw
      simp [find, node.Value, hw]
    · obtain ⟨c, rest, hk, hv⟩ := ihL hoL k hm
      obtain ⟨c', rest', hk', hp⟩ := sibAll_head _ L hsl k v hm
      rw [hk] at hk'
      injection hk' with hc _
      subst hc
      have hlt : c < C := by simpa using hp
      exact ⟨c, rest, hk, by simpa [find, hlt] using hv⟩
    · obtain ⟨e, he, hke⟩ := hm
      injection hke with hk hv
      subst hv
      obtain ⟨d, ds, hd, hv⟩ := ihM hoM e.1 he
      refine ⟨C, e.1, hk.symm, ?_⟩
      rw [hd]
      simpa [find] using hv
    · obtain ⟨c, rest, hk, hv⟩ := ihR hoR k hm
      obtain ⟨c', rest', hk', hp⟩ := sibAll_head _ R hsr k v hm
      rw [hk] at hk'
      injection hk' with hc _
      subst hc
      have hgt : C < c := by simpa using hp
      have hnlt : ¬ c < C := not_lt.2 (le_of_lt hgt)
      exact ⟨c, rest, hk, by simpa [find, hgt, hnlt] using hv⟩

theorem nodup_entries (n : node) (ho : Ordered n = true) :
    ((entries n).map Prod.fst).Nodup := by
  induction n with
  | nil => simp [entries]
  | mk C V L M R ihL ihM ihR =>
    simp only [Ordered, Bool.and_eq_true] at ho
    obtain ⟨⟨⟨⟨hsl, hsr⟩, hoL⟩, hoM⟩, hoR⟩ := ho
    have hA : ∀ k, k ∈ (V.toList.map fun v => (([C] : List Byte), v)).map Prod.fst → k = [C] := by
      intro k hk
      simp only [List.map_map, List.mem_map, Function.comp_apply] at hk
      obtain ⟨_, _, hk⟩ := hk
      exact hk.symm
    have hL : ∀ k, k ∈ (entries L).map Prod.fst → ∃ c rest, k = c :: rest ∧ c < C := by
      intro k hk
      obtain ⟨e, he, hk⟩ := List.mem_map.1 hk
      obtain ⟨c, rest, hc, hp⟩ := sibAll_head _ L hsl e.1 e.2 he
      exact ⟨c, rest, by rw [← hk, hc], by simpa using hp⟩
    have hR : ∀ k, k ∈ (entries R).map Prod.fst → ∃ c rest, k = c :: rest ∧ C < c := by
      intro k hk
      obtain ⟨e, he, hk⟩ := List.mem_map.1 hk
      obtain ⟨c, rest, hc, hp⟩ := sibAll_head _ R hsr e.1 e.2 he
      exact ⟨c, rest, by rw [← hk, hc], by simpa using hp⟩
    have hMeq : ((entries M).map fun e => (C :: e.1, e.2)).map Prod.fst
        = ((entries M).map Prod.fst).map (fun k => C :: k) := by
      simp [List.map_map, Function.comp_def]
    have hM : ∀ k, k ∈ ((entries M).map fun e => (C :: e.1, e.2)).map Prod.fst →
        ∃ d ds, k = C :: d :: ds := by
      intro k hk
      rw [hMeq] at hk
      obtain ⟨k', hk', hk⟩ := List.mem_map.1 hk
      obtain ⟨e, he, hek⟩ := List.mem_map.1 hk'
      obtain ⟨d, ds, hd, _⟩ := find_of_mem_entries M hoM e.1 e.2 he
      exact ⟨d, ds, by rw [← hk, ← hek, hd]⟩
    simp only [entries, List.map_append]
    refine List.nodup_append.2 ⟨List.nodup_append.2 ⟨List.nodup_append.2 ⟨?_, ihL hoL, ?_⟩, ?_, ?_⟩,
      ihR hoR, ?_⟩
    · cases V <;> simp
    · intro k h1 h2
      obtain ⟨c, rest, hc, hlt⟩ := hL k h2
      rw [hA k h1] at hc
      injection hc with hc _
      rw [hc] at hlt
      exact lt_irrefl _ hlt
    · rw [hMeq]
      exact (ihM hoM).map (List.cons_injective)
    · intro k h1 h2
      obtain ⟨d, ds, hd⟩ := hM k h2
      rcases List.mem_append.1 h1 with h1 | h1
      · rw [hA k h1] at hd
        injection hd with _ hd
        exact absurd hd (by simp)
      · obtain ⟨c, rest, hc, hlt⟩ := hL k h1
        rw [hc] at hd
        injection hd with hd _
        rw [hd] at hlt
        exact lt_irrefl _ hlt
    · intro k h1 h2
      obtain ⟨c, rest, hc, hgt⟩ := hR k h2
      rcases List.mem_append.1 h1 with h1 | h1
      · rcases List.mem_append.1 h1 with h1 | h1
        · rw [hA k h1] at hc
          injection hc with hc _
          rw [hc] at hgt
          exact lt_irrefl _ hgt
        · obtain ⟨c', rest', hc', hlt⟩ := hL k h1
          rw [hc] at hc'
          injection hc' with hc' _
          rw [hc'] at hgt
          exact lt_asymm hgt hlt
      · obtain ⟨d, ds, hd⟩ := hM k h1
        rw [hc] at hd
        injection hd with hd _
        rw [hd] at hgt
        exact lt_irrefl _ hgt

/-! ## The sibling ordering invariant -/

theorem sibAll_chain (p : Byte → Bool) (c : Byte) (rest : List Byte) (value : Any)
    (hc : p c = true) : sibAll p (chain c rest value) = true := by
  cases rest <;> simp [chain, sibAll, hc]

theorem sibAll_ins (p : Byte → Bool) (n : node) (c : Byte) (rest : List Byte) (value : Any)
    (h : sibAll p n = true) (hc : p c = true) : sibAll p (ins n c rest value) = true := by
  induction n with
  | nil => simpa [ins] using sibAll_chain p c rest value hc
  | mk C V L M R ihL _ ihR =>
    simp only [sibAll, Bool.and_eq_true] at h
    simp only [ins]
    split_ifs with h1 h2
    · simp [sibAll, h.1.1, h.2, ihL h.1.2]
    · simp [sibAll, h.1.1, h.1.2, ihR h.2]
    · cases rest <;> simp [sibAll, h.1.1, h.1.2, h.2]

theorem Ordered_chain (c : Byte) (rest : List Byte) (value : Any) :
    Ordered (chain c rest value) = true := by
  induction rest generalizing c with
  | nil => simp [chain, Ordered, sibAll]
  | cons d ds ih => simp [chain, Ordered, sibAll, ih]

theorem Ordered_ins (n : node) (c : Byte) (rest : List Byte) (value : Any)
    (h : Ordered n = true) : Ordered (ins n c rest value) = true := by
  induction n generalizing c rest with
  | nil => simpa [ins] using Ordered_chain c rest value
  | mk C V L M R ihL ihM ihR =>
    simp only [Ordered, Bool.and_eq_true] at h
    obtain ⟨⟨⟨⟨hsl, hsr⟩, hoL⟩, hoM⟩, hoR⟩ := h
    simp only [ins]
    split_ifs with h1 h2
    · simp [Ordered, hsr, hoM, hoR, ihL c rest hoL, sibAll_ins _ L c rest value hsl (by simpa using h1)]
    · simp [Ordered, hsl, hoL, hoM, ihR c rest hoR, sibAll_ins _ R c rest value hsr (by simpa using h2)]
    · cases rest with
      | nil => simp [Ordered, hsl, hsr, hoL, hoM, hoR]
      | cons d ds => simp [Ordered, hsl, hsr, hoL, hoR, ihM d ds hoM]

theorem Ordered_insItem (n : node) (item : Any) (h : Ordered n = true) :
    Ordered (insItem n item) = true := by
  unfold insItem
  split
  · exact Ordered_ins _ _ _ _ h
  · exact h

theorem Ordered_AddAll (tree : TST) (items : List Any) (h : Ordered tree.root = true) :
    Ordered (AddAll tree items).root = true := by
  induction items generalizing tree with
  | nil => exact h
  | cons item rest ih =>
    rw [AddAll_cons]
    apply ih
    rw [Add_fst]
    exact Ordered_insItem _ _ h

theorem Reachable_AddAll (tree : TST) (items : List Any) (h : Reachable tree) :
    Reachable (AddAll tree items) := by
  induction items generalizing tree with
  | nil => exact h
  | cons item rest ih =>
    rw [AddAll_cons]
    exact ih _ (Reachable.add tree item h)

/-- Every tree reachable from `New()` by `Add` calls satisfies the sibling
ordering invariant. -/
theorem Ordered_Reachable (tree : TST) (h : Reachable tree) : Ordered tree.root = true := by
  induction h with
  | new => rfl
  | add tree item _ ih =>
    rw [Add_fst]
    exact Ordered_insItem _ _ ih

theorem Ordered_find (n : node) (c : Byte) (rest : List Byte) (h : Ordered n = true) :
    Ordered (find n c rest) = true := by
  induction n generalizing c rest with
  | nil => simp [find, Ordered]
  | mk C V L M R ihL ihM ihR =>
    have h' := h
    simp only [Ordered, Bool.and_eq_true] at h'
    obtain ⟨⟨⟨⟨_, _⟩, hoL⟩, hoM⟩, hoR⟩ := h'
    simp only [find]
    split_ifs with h1 h2
    · exact ihL c rest hoL
    · exact ihR c rest hoR
    · cases rest with
      | nil => exact h
      | cons d ds => exact ihM d ds hoM

theorem Ordered_Mid (n : node) (h : Ordered n = true) : Ordered n.Mid = true := by
  cases n with
  | nil => simp [node.Mid, Ordered]
  | mk C V L M R =>
    simp only [Ordered, Bool.and_eq_true] at h
    exact h.1.2

/-! ## The entries `MatchPrefix` collects and the stored keys -/

theorem Get_append (tree : TST) (c : Byte) (rest s : List Byte) :
    Get tree (c :: rest ++ s) = .ok
      (match s with
        | [] => (find tree.root c rest).Value
        | d :: ds => (find (find tree.root c rest).Mid d ds).Value) := by
  cases s with
  | nil => simp [Get_cons]
  | cons d ds =>
    have h : c :: rest ++ d :: ds = c :: (rest ++ d :: ds) := rfl
    rw [h, Get_cons, find_append]

theorem mem_entriesAt_iff_Get (tree : TST) (ho : Ordered tree.root = true) (c : Byte)
    (rest s : List Byte) (v : Any) :
    (s, v) ∈ entriesAt (find tree.root c rest) ↔ Get tree (c :: rest ++ s) = .ok (some v) := by
  rw [Get_append]
  have hoM := Ordered_Mid _ (Ordered_find tree.root c rest ho)
  simp only [entriesAt, List.mem_append, List.mem_map, Option.mem_toList, Option.mem_def,
    Prod.mk.injEq, Except.ok.injEq]
  cases s with
  | nil =>
    constructor
    · rintro (⟨w, hw, _, hwv⟩ | hm)
      · rw [hw, hwv]
      · obtain ⟨d, ds, hd, _⟩ := find_of_mem_entries _ hoM [] v hm
        exact absurd hd (by simp)
    · intro h
      exact Or.inl ⟨v, h, rfl, rfl⟩
  | cons d ds =>
    constructor
    · rintro (⟨w, _, hnil, _⟩ | hm)
      · exact absurd hnil (by simp)
      · obtain ⟨d', ds', hd, hv⟩ := find_of_mem_entries _ hoM (d :: ds) v hm
        injection hd with h1 h2
        subst h1 h2
        exact hv
    · intro h
      exact Or.inr (mem_entries_of_find _ d ds v h)

theorem nodup_entriesAt (n : node) (ho : Ordered n = true) :
    ((entriesAt n).map Prod.fst).Nodup := by
  have hoM := Ordered_Mid n ho
  simp only [entriesAt, List.map_append]
  refine List.nodup_append.2 ⟨?_, nodup_entries _ hoM, ?_⟩
  · cases n.Value <;> simp
  · intro k h1 h2
    have hk : k = [] := by
      simp only [List.map_map, List.mem_map, Function.comp_apply] at h1
      obtain ⟨_, _, hk⟩ := h1
      exact hk.symm
    obtain ⟨e, he, hek⟩ := List.mem_map.1 h2
    obtain ⟨d, ds, hd, _⟩ := find_of_mem_entries _ hoM e.1 e.2 he
    rw [hd, hk] at hek
    exact absurd hek (by simp)

theorem Get_AddAll_New_iff (items : List Any) (q : List Byte) (hq : q ≠ []) (v : Any) :
    Get (AddAll New items) q = .ok (some v) ↔ latest items q = some v := by
  rw [Get_AddAll items New q hq]
  cases latest items q with
  | none => simp [Get_New]
  | some w => simp

theorem mem_storedKeys (items : List Any) (k : List Byte) :
    k ∈ storedKeys items ↔ ∃ v, latest items k = some v := by
  simp only [storedKeys, List.mem_dedup, List.mem_filterMap]
  constructor
  · rintro ⟨item, hi, hk⟩
    cases h : latest items k with
    | some v => exact ⟨v, rfl⟩
    | none =>
      exact absurd ((keyOf_eq_some item k).1 hk) ((latest_eq_none items k).1 h item hi)
  · rintro ⟨v, hv⟩
    exact ⟨v, (latest_getKey items k v hv).2, (keyOf_eq_some v k).2 (latest_getKey items k v hv).1⟩

/-- The keys of the values `MatchPrefix(c :: rest)` returns are, up to order,
the distinct stored keys with that prefix, and each value is the one stored
for its key. -/
theorem entriesAt_AddAll (items : List Any) (c : Byte) (rest : List Byte) :
    (∀ s v, (s, v) ∈ entriesAt (find (AddAll New items).root c rest) ↔
        latest items (c :: rest ++ s) = some v) ∧
      (((entriesAt (find (AddAll New items).root c rest)).map Prod.fst).map
          (fun s => c :: rest ++ s)).Perm
        ((storedKeys items).filter (fun k => (c :: rest) <+: k)) := by
  have ho : Ordered (AddAll New items).root = true := Ordered_AddAll New items rfl
  have hmem : ∀ s v, (s, v) ∈ entriesAt (find (AddAll New items).root c rest) ↔
      latest items (c :: rest ++ s) = some v := by
    intro s v
    rw [mem_entriesAt_iff_Get _ ho, Get_AddAll_New_iff items _ (by simp)]
  refine ⟨hmem, ?_⟩
  have hinj : Function.Injective (fun s : List Byte => c :: rest ++ s) :=
    List.append_right_injective (c :: rest)
  refine (List.perm_ext_iff_of_nodup ((nodup_entriesAt _ (Ordered_find _ c rest ho)).map hinj)
    ((List.nodup_dedup _).filter _)).2 ?_
  intro k
  show k ∈ List.map (fun s => c :: rest ++ s)
      (List.map Prod.fst (entriesAt (find (AddAll New items).root c rest))) ↔
    k ∈ List.filter (fun k => decide ((c :: rest) <+: k)) (storedKeys items)
  simp only [List.mem_map, List.mem_filter, decide_eq_true_eq, mem_storedKeys]
  constructor
  · rintro ⟨s, ⟨e, he, hes⟩, hk⟩
    subst hes hk
    exact ⟨⟨e.2, (hmem e.1 e.2).1 he⟩, List.prefix_append _ _⟩
  · rintro ⟨⟨v, hv⟩, s, hs⟩
    subst hs
    exact ⟨s, ⟨(s, v), (hmem s v).2 hv, rfl⟩, rfl⟩

/-! ## Insertion order and non-empty keys -/

theorem latest_of_nodup (items : List Any) (hd : (items.map keyOf).Nodup) (q : List Byte)
    (v : Any) (hv : v ∈ items) (hk : keyOf v = some q) : latest items q = some v := by
  induction items with
  | nil => simp at hv
  | cons item rest ih =>
    simp only [List.map_cons, List.nodup_cons] at hd
    rw [latest]
    rcases List.mem_cons.1 hv with hv | hv
    · subst hv
      cases h : latest rest q with
      | some w =>
        have hw := latest_getKey rest q w h
        exact absurd (List.mem_map.2 ⟨w, hw.2, by rw [(keyOf_eq_some w q).2 hw.1, hk]⟩) hd.1
      | none => simp [hk]
    · rw [ih hd.2 hv]

/-- For non-empty keys the insertion order of items with pairwise distinct
keys is not observable through `Get`. -/
theorem Get_AddAll_perm (items items' : List Any) (hperm : items.Perm items')
    (hd : (items.map keyOf).Nodup) (q : List Byte) (hq : q ≠ []) :
    Get (AddAll New items) q = Get (AddAll New items') q := by
  have hd' : (items'.map keyOf).Nodup := (hperm.map keyOf).nodup_iff.1 hd
  rw [Get_AddAll items New q hq, Get_AddAll items' New q hq]
  cases h : latest items q with
  | some v =>
    have hv := latest_getKey items q v h
    rw [latest_of_nodup items' hd' q v (hperm.mem_iff.1 hv.2) ((keyOf_eq_some v q).2 hv.1)]
  | none =>
    cases h' : latest items' q with
    | none => rfl
    | some w =>
      have hw := latest_getKey items' q w h'
      rw [latest_of_nodup items hd q w (hperm.mem_iff.2 hw.2) ((keyOf_eq_some w q).2 hw.1)] at h
      exact absurd h (by simp)

/-! ## Indexing, the zero-length key and the root node -/

theorem get_ok (n : node) (key : List Byte) (i : Nat) (h : key = [] ∨ i < key.length) :
    ∃ m, get n key i = .ok m := by
  rcases h with h | h
  · subst h
    exact ⟨n, get_nil_key n i⟩
  · exact ⟨_, get_eq_find_aux key n i h⟩

theorem Get_ok (tree : TST) (key : List Byte) : ∃ r, Get tree key = .ok r := by
  cases key with
  | nil => exact ⟨_, Get_nil_key tree⟩
  | cons c rest => exact ⟨_, Get_cons tree c rest⟩

theorem ins_root (C : Byte) (V : Option Any) (L M R : node) (c : Byte) (rest : List Byte)
    (value : Any) :
    ∃ V' L' M' R', ins (.mk C V L M R) c rest value = .mk C V' L' M' R' := by
  simp only [ins]
  split_ifs with h1 h2
  · exact ⟨_, _, _, _, rfl⟩
  · exact ⟨_, _, _, _, rfl⟩
  · cases rest with
    | nil => exact ⟨_, _, _, _, rfl⟩
    | cons d ds => exact ⟨_, _, _, _, rfl⟩

theorem chain_root (c : Byte) (rest : List Byte) (value : Any) :
    ∃ V M, chain c rest value = .mk c V .nil M .nil := by
  cases rest with
  | nil => exact ⟨_, _, rfl⟩
  | cons d ds => exact ⟨_, _, rfl⟩

theorem insItem_root (C : Byte) (V : Option Any) (L M R : node) (item : Any) :
    ∃ V' L' M' R', insItem (.mk C V L M R) item = .mk C V' L' M' R' := by
  unfold insItem
  split
  · exact ins_root C V L M R _ _ _
  · exact ⟨_, _, _, _, rfl⟩

/-- The character of the root node never changes once the root exists. -/
theorem AddAll_root_char (items : List Any) (tree : TST) (C : Byte) (V : Option Any)
    (L M R : node) (h : tree.root = .mk C V L M R) :
    ∃ V' L' M' R', (AddAll tree items).root = .mk C V' L' M' R' := by
  induction items generalizing tree V L M R with
  | nil => exact ⟨V, L, M, R, h⟩
  | cons item rest ih =>
    rw [AddAll_cons]
    obtain ⟨V', L', M', R', h'⟩ := insItem_root C V L M R item
    apply ih (Add tree item).1 V' L' M' R'
    rw [Add_fst, h, h']

/-- With a root node of character `C`, `Get("")` and `Get` of the one-byte
key `C` both return the value of the root node. -/
theorem Get_root_char (tree : TST) (C : Byte) (V : Option Any) (L M R : node)
    (h : tree.root = .mk C V L M R) :
    Get tree [] = .ok tree.root.Value ∧ Get tree [C] = .ok tree.root.Value := by
  refine ⟨Get_nil_key tree, ?_⟩
  rw [Get_cons, h]
  simp [find]

theorem walk_eq_entries (n : node) : walk n = (entries n).map Prod.snd := by
  induction n with
  | nil => rfl
  | mk C V L M R ihL ihM ihR =>
    simp only [walk, entries, ihL, ihM, ihR, List.map_append, List.map_map]
    cases V <;> simp [Function.comp_def]

theorem matchPrefix_eq_walk (n : node) (pfx : List Byte) (queue : List Any) :
    matchPrefix n pfx queue = queue ++ walk n := by
  rw [matchPrefix_eq, walk_eq_entries]

theorem MatchPrefix_eq_walk (tree : TST) (c : Byte) (rest : List Byte) :
    MatchPrefix tree (c :: rest) = .ok
      ((find tree.root c rest).Value.toList ++ walk (find tree.root c rest).Mid) := by
  rw [MatchPrefix_cons, walk_eq_entries]
  simp [entriesAt, Function.comp_def]

/-! ## The nodes of a tree, their paths and their sibling trees -/

theorem sibAll_iff (p : Byte → Bool) (n : node) :
    sibAll p n = true ↔ ∀ x ∈ sibChars n, p x = true := by
  induction n with
  | nil => simp [sibAll, sibChars]
  | mk C V L M R ihL _ ihR =>
    simp only [sibAll, sibChars, Bool.and_eq_true, ihL, ihR, List.mem_append, List.mem_cons]
    constructor
    · rintro ⟨⟨hC, hL⟩, hR⟩ x (hx | hx | hx)
      · exact hL x hx
      · rw [hx]; exact hC
      · exact hR x hx
    · intro h
      exact ⟨⟨h C (Or.inr (Or.inl rfl)), fun x hx => h x (Or.inl hx)⟩,
        fun x hx => h x (Or.inr (Or.inr hx))⟩

/-- In an ordered tree the characters of a sibling tree are strictly
increasing from left to right. -/
theorem sibChars_sorted (n : node) (ho : Ordered n = true) :
    (sibChars n).Pairwise (fun a b => a < b) := by
  induction n with
  | nil => simp [sibChars]
  | mk C V L M R ihL _ ihR =>
    simp only [Ordered, Bool.and_eq_true] at ho
    obtain ⟨⟨⟨⟨hsl, hsr⟩, hoL⟩, _⟩, hoR⟩ := ho
    have hl := (sibAll_iff _ L).1 hsl
    have hr := (sibAll_iff _ R).1 hsr
    simp only [decide_eq_true_eq] at hl hr
    simp only [sibChars]
    rw [List.pairwise_append]
    refine ⟨ihL hoL, List.pairwise_cons.2 ⟨hr, ihR hoR⟩, ?_⟩
    intro a ha b hb
    rcases List.mem_cons.1 hb with hb | hb
    · rw [hb]; exact hl a ha
    · exact lt_trans (hl a ha) (hr b hb)

theorem sibChars_nodup (n : node) (ho : Ordered n = true) : (sibChars n).Nodup :=
  (sibChars_sorted n ho).imp (fun h => ne_of_lt h)

theorem sibAll_head_nodesAt (p : Byte → Bool) (n : node) (h : sibAll p n = true)
    (k : List Byte) (N : node) (hm : (k, N) ∈ nodesAt n) :
    ∃ c rest, k = c :: rest ∧ p c = true := by
  induction n with
  | nil => simp [nodesAt] at hm
  | mk C V L M R ihL _ ihR =>
    simp only [sibAll, Bool.and_eq_true] at h
    simp only [nodesAt, List.mem_cons, List.mem_append, List.mem_map] at hm
    rcases hm with hm | (hm | hm) | hm
    · injection hm with hk _
      exact ⟨C, [], hk, h.1.1⟩
    · exact ihL h.1.2 hm
    · obtain ⟨e, _, he⟩ := hm
      injection he with hk _
      exact ⟨C, e.1, hk.symm, h.1.1⟩
    · exact ihR h.2 hm

/-- In an ordered tree the traversal of `get` along the path of a node ends
at that node. -/
theorem find_of_mem_nodesAt (n : node) (ho : Ordered n = true) (k : List Byte) (N : node)
    (hm : (k, N) ∈ nodesAt n) : ∃ c rest, k = c :: rest ∧ find n c rest = N ∧ N ≠ .nil := by
  induction n generalizing k with
  | nil => simp [nodesAt] at hm
  | mk C V L M R ihL ihM ihR =>
    simp only [Ordered, Bool.and_eq_true] at ho
    obtain ⟨⟨⟨⟨hsl, hsr⟩, hoL⟩, hoM⟩, hoR⟩ := ho
    simp only [nodesAt, List.mem_cons, List.mem_append, List.mem_map] at hm
    rcases hm with hm | (hm | hm) | hm
    · injection hm with hk hN
      subst hN
      exact ⟨C, [], hk, by simp [find], by simp⟩
    · obtain ⟨c, rest, hk, hv, hne⟩ := ihL hoL k hm
      obtain ⟨c', rest', hk', hp⟩ := sibAll_head_nodesAt _ L hsl k N hm
      rw [hk] at hk'
      injection hk' with hc _
      subst hc
      have hlt : c < C := by simpa using hp
      exact ⟨c, rest, hk, by simpa [find, hlt] using hv, hne⟩
    · obtain ⟨e, he, hke⟩ := hm
      injection hke with hk hN
      subst hN
      obtain ⟨d, ds, hd, hv, hne⟩ := ihM hoM e.1 he
      refine ⟨C, e.1, hk.symm, ?_, hne⟩
      rw [hd]
      simpa [find] using hv
    · obtain ⟨c, rest, hk, hv, hne⟩ := ihR hoR k hm
      obtain ⟨c', rest', hk', hp⟩ := sibAll_head_nodesAt _ R hsr k N hm
      rw [hk] at hk'
      injection hk' with hc _
      subst hc
      have hgt : C < c := by simpa using hp
      have hnlt : ¬ c < C := not_lt.2 (le_of_lt hgt)
      exact ⟨c, rest, hk, by simpa [find, hgt, hnlt] using hv, hne⟩

theorem Ordered_of_mem_nodesAt (n : node) (ho : Ordered n = true) (k : List Byte) (N : node)
    (hm : (k, N) ∈ nodesAt n) : Ordered N = true := by
  obtain ⟨c, rest, _, hf, _⟩ := find_of_mem_nodesAt n ho k N hm
  rw [← hf]
  exact Ordered_find n c rest ho

/-! ## No dead branches -/

theorem chain_ne_nil (c : Byte) (rest : List Byte) (value : Any) :
    chain c rest value ≠ .nil := by
  cases rest <;> simp [chain]

theorem noDead_chain (c : Byte) (rest : List Byte) (value : Any) :
    noDead (chain c rest value) = true := by
  induction rest generalizing c with
  | nil => simp [chain, noDead]
  | cons d ds ih =>
    simp only [chain, noDead, ih d, Bool.and_true]
    cases hc : chain d ds value with
    | nil => exact absurd hc (chain_ne_nil d ds value)
    | mk _ _ _ _ _ => rfl

theorem noDead_ins (n : node) (c : Byte) (rest : List Byte) (value : Any)
    (h : noDead n = true) : noDead (ins n c rest value) = true := by
  induction n generalizing c rest with
  | nil => simpa [ins] using noDead_chain c rest value
  | mk C V L M R ihL ihM ihR =>
    simp only [noDead, Bool.and_eq_true] at h
    obtain ⟨⟨⟨hv, hL⟩, hM⟩, hR⟩ := h
    simp only [ins]
    split_ifs with h1 h2
    · simp [noDead, hv, hM, hR, ihL c rest hL]
    · simp [noDead, hv, hL, hM, ihR c rest hR]
    · cases rest with
      | nil => simp [noDead, hL, hM, hR]
      | cons d ds =>
        have hM' := ihM d ds hM
        have hne : ins M d ds value ≠ .nil := by
          cases M with
          | nil => cases ds <;> simp [ins, chain]
          | mk C' V' L' M' R' =>
            obtain ⟨_, _, _, _, hr⟩ := ins_root C' V' L' M' R' d ds value
            rw [hr]; simp
        simp only [noDead, hL, hM', hR, Bool.and_true, Bool.and_eq_true]
        cases hi : ins M d ds value with
        | nil => exact absurd hi hne
        | mk _ _ _ _ _ => cases V <;> rfl

theorem noDead_insItem (n : node) (item : Any) (h : noDead n = true) :
    noDead (insItem n item) = true := by
  unfold insItem
  split
  · exact noDead_ins _ _ _ _ h
  · exact h

theorem noDead_Reachable (tree : TST) (h : Reachable tree) : noDead tree.root = true := by
  induction h with
  | new => rfl
  | add tree item _ ih =>
    rw [Add_fst]
    exact noDead_insItem _ _ ih

theorem noDead_find (n : node) (c : Byte) (rest : List Byte) (h : noDead n = true) :
    noDead (find n c rest) = true := by
  induction n generalizing c rest with
  | nil => simp [find, noDead]
  | mk C V L M R ihL ihM ihR =>
    have h' := h
    simp only [noDead, Bool.and_eq_true] at h'
    obtain ⟨⟨⟨_, hL⟩, hM⟩, hR⟩ := h'
    simp only [find]
    split_ifs with h1 h2
    · exact ihL c rest hL
    · exact ihR c rest hR
    · cases rest with
      | nil => exact h
      | cons d ds => exact ihM d ds hM

theorem entries_ne_nil (n : node) (h : noDead n = true) (hn : n ≠ .nil) : entries n ≠ [] := by
  induction n with
  | nil => exact absurd rfl hn
  | mk C V L M R _ ihM _ =>
    simp only [noDead, Bool.and_eq_true] at h
    obtain ⟨⟨⟨hv, _⟩, hM⟩, _⟩ := h
    cases V with
    | some v => simp [entries]
    | none =>
      have hMne : M ≠ .nil := by
        intro hM0
        subst hM0
        simp at hv
      have hM' : (entries M).map (fun e => (C :: e.1, e.2)) ≠ [] := by
        simpa using ihM hM hMne
      intro hnil
      rw [entries] at hnil
      simp only [List.append_eq_nil] at hnil
      exact hM' hnil.1.2

theorem entriesAt_ne_nil (n : node) (h : noDead n = true) (hn : n ≠ .nil) :
    entriesAt n ≠ [] := by
  cases n with
  | nil => exact absurd rfl hn
  | mk C V L M R =>
    simp only [noDead, Bool.and_eq_true] at h
    obtain ⟨⟨⟨hv, _⟩, hM⟩, _⟩ := h
    cases V with
    | some v => simp [entriesAt, node.Value]
    | none =>
      cases M with
      | nil => simp at hv
      | mk C' V' L' M' R' =>
        have hM' := entries_ne_nil _ hM (by simp)
        simpa [entriesAt, node.Value, node.Mid] using hM'

theorem found_cons (n : node) (c : Byte) (rest : List Byte) :
    found n (c :: rest) = true ↔ find n c rest ≠ .nil := by
  simp only [found, get_cons]
  cases find n c rest <;> simp

/-! ## Node growth -/

theorem chain_size (c : Byte) (rest : List Byte) (value : Any) :
    (chain c rest value).size = rest.length + 1 := by
  induction rest generalizing c with
  | nil => simp [chain, node.size]
  | cons d ds ih => simp [chain, node.size, ih d]; omega

theorem matchLen_le (n : node) (c : Byte) (rest : List Byte) :
    matchLen n c rest ≤ rest.length + 1 := by
  induction n generalizing c rest with
  | nil => simp [matchLen]
  | mk C V L M R ihL ihM ihR =>
    simp only [matchLen]
    split_ifs with h1 h2
    · exact ihL c rest
    · exact ihR c rest
    · cases rest with
      | nil => simp
      | cons d ds =>
        have := ihM d ds
        simp only [List.length_cons]
        omega

/-- The number of nodes `ins` creates. -/
theorem ins_size (n : node) (c : Byte) (rest : List Byte) (value : Any) :
    (ins n c rest value).size = n.size + (rest.length + 1 - matchLen n c rest) := by
  induction n generalizing c rest with
  | nil => simp [ins, chain_size, matchLen, node.size]
  | mk C V L M R ihL ihM ihR =>
    simp only [ins, matchLen]
    split_ifs with h1 h2
    · simp only [node.size, ihL c rest]; omega
    · simp only [node.size, ihR c rest]; omega
    · cases rest with
      | nil => simp [node.size]
      | cons d ds =>
        have := matchLen_le M d ds
        simp only [node.size, ihM d ds, List.length_cons]
        omega

/-- The path of the first `j + 1` bytes of `c :: rest` exists exactly when
`j` is less than `matchLen`. -/
theorem find_take_ne_nil (n : node) (c : Byte) (rest : List Byte) (j : Nat)
    (hj : j ≤ rest.length) : find n c (rest.take j) ≠ .nil ↔ j < matchLen n c rest := by
  induction n generalizing c rest j with
  | nil => simp [find, matchLen]
  | mk C V L M R ihL ihM ihR =>
    simp only [find, matchLen]
    split_ifs with h1 h2
    · exact ihL c rest j hj
    · exact ihR c rest j hj
    · cases rest with
      | nil => simp at hj; subst hj; simp
      | cons d ds =>
        cases j with
        | zero => simp
        | succ j' =>
          simp only [List.take_succ_cons]
          rw [ihM d ds j' (by simpa using hj)]
          omega

theorem embeds_refl (n : node) : embeds n n = true := by
  induction n with
  | nil => rfl
  | mk C V L M R ihL ihM ihR => simp [embeds, ihL, ihM, ihR]

theorem embeds_ins (n : node) (c : Byte) (rest : List Byte) (value : Any) :
    embeds n (ins n c rest value) = true := by
  induction n generalizing c rest with
  | nil => rfl
  | mk C V L M R ihL ihM ihR =>
    simp only [ins]
    split_ifs with h1 h2
    · simp [embeds, ihL c rest, embeds_refl]
    · simp [embeds, ihR c rest, embeds_refl]
    · cases rest with
      | nil => simp [embeds, embeds_refl]
      | cons d ds => simp [embeds, ihM d ds, embeds_refl]

/-! ## Termination: bounded recursion depth -/

theorem addFuel_eq_aux (key : List Byte) (value : Any) :
    ∀ (m : Nat) (n : node) (i : Nat), key.length - i = m →
      ∀ fuel, m + n.size < fuel → addFuel fuel n key value i = some (add n key value i) := by
  intro m
  induction m with
  | zero =>
    intro n i hm fuel hf
    have hnone : key[i]? = none := List.getElem?_eq_none (by omega)
    cases fuel with
    | zero => omega
    | succ f =>
      rw [addFuel, add]
      simp [hnone]
  | succ m ihm =>
    intro n
    induction n with
    | nil =>
      intro i hm fuel hf
      have hi : i < key.length := by omega
      cases fuel with
      | zero => omega
      | succ f =>
        rw [addFuel, add]
        simp only [List.getElem?_eq_getElem hi, orNew, lt_self_iff_false, gt_iff_lt, dite_false,
          if_false]
        by_cases h1 : i < key.length - 1
        · rw [dif_pos h1, if_pos h1, ihm .nil (i + 1) (by omega) f (by simp [node.size] at hf ⊢; omega)]
          rfl
        · rw [dif_neg h1, if_neg h1]
    | mk C V L M R ihL _ ihR =>
      intro i hm fuel hf
      have hi : i < key.length := by omega
      simp only [node.size] at hf
      cases fuel with
      | zero => omega
      | succ f =>
        rw [addFuel, add]
        simp only [List.getElem?_eq_getElem hi, orNew, gt_iff_lt]
        by_cases h1 : key[i] < C
        · rw [dif_pos h1, if_pos h1, ihL i hm f (by omega)]
          rfl
        · rw [dif_neg h1, if_neg h1]
          by_cases h2 : C < key[i]
          · rw [dif_pos h2, if_pos h2, ihR i hm f (by omega)]
            rfl
          · rw [dif_neg h2, if_neg h2]
            by_cases h3 : i < key.length - 1
            · rw [dif_pos h3, if_pos h3, ihm M (i + 1) (by omega) f (by omega)]
              rfl
            · rw [dif_neg h3, if_neg h3]

/-- A recursion depth of `len(key) - i + size(n) + 1` is enough for `add`. -/
theorem addFuel_eq (n : node) (key : List Byte) (value : Any) (i : Nat) (fuel : Nat)
    (hf : key.length - i + n.size < fuel) :
    addFuel fuel n key value i = some (add n key value i) :=
  addFuel_eq_aux key value (key.length - i) n i rfl fuel hf

/-- A recursion depth of `size(n) + 1` is enough for `get`. -/
theorem getFuel_eq (n : node) (key : List Byte) (i : Nat) (fuel : Nat) (hf : n.size < fuel) :
    getFuel fuel n key i = some (get n key i) := by
  induction n generalizing i fuel with
  | nil =>
    cases fuel with
    | zero => omega
    | succ f => simp [getFuel, get]
  | mk C V L M R ihL ihM ihR =>
    simp only [node.size] at hf
    cases fuel with
    | zero => omega
    | succ f =>
      rw [getFuel, get]
      by_cases h0 : key.length = 0
      · rw [if_pos h0, if_pos h0]
      · rw [if_neg h0, if_neg h0]
        cases hk : key[i]? with
        | none => rfl
        | some c =>
          simp only
          by_cases h1 : c < C
          · rw [if_pos h1, if_pos h1]
            exact ihL i f (by omega)
          · rw [if_neg h1, if_neg h1]
            by_cases h2 : c > C
            · rw [if_pos h2, if_pos h2]
              exact ihR i f (by omega)
            · rw [if_neg h2, if_neg h2]
              by_cases h3 : i < key.length - 1
              · rw [if_pos h3, if_pos h3]
                exact ihM (i + 1) f (by omega)
              · rw [if_neg h3, if_neg h3]

/-- A recursion depth of `size(n) + 1` is enough for `matchPrefix`. -/
theorem matchPrefixFuel_eq (n : node) (pfx : List Byte) (queue : List Any) (fuel : Nat)
    (hf : n.size < fuel) :
    matchPrefixFuel fuel n pfx queue = some (matchPrefix n pfx queue) := by
  induction n generalizing pfx queue fuel with
  | nil =>
    cases fuel with
    | zero => omega
    | succ f => simp [matchPrefixFuel, matchPrefix]
  | mk C V L M R ihL ihM ihR =>
    simp only [node.size] at hf
    cases fuel with
    | zero => omega
    | succ f =>
      simp only [matchPrefixFuel, matchPrefix]
      rw [ihL _ _ f (by omega)]
      simp only [Option.some_bind]
      rw [ihM _ _ f (by omega)]
      simp only [Option.some_bind]
      rw [ihR _ _ f (by omega)]

/-- The recursive call of an activation of `add` decreases the pair
(remaining key length, size of the subtree) in the lexicographic order. -/
theorem addNext_decreases (n : node) (key : List Byte) (i : Nat) (n' : node) (i' : Nat)
    (h : addNext n key i = some (n', i')) :
    Prod.Lex (fun a b : Nat => a < b) (fun a b : Nat => a < b)
        (key.length - i', n'.size) (key.length - i, n.size) ∧
      ((i' = i ∧ n'.size < n.size) ∨ (i' = i + 1 ∧ i' < key.length)) := by
  unfold addNext at h
  cases hk : key[i]? with
  | none => simp [hk] at h
  | some c =>
    have hi : i < key.length := by
      by_contra hcon
      rw [List.getElem?_eq_none (by omega)] at hk
      exact absurd hk (by simp)
    rw [hk] at h
    cases n with
    | nil =>
      simp only [orNew, lt_self_iff_false, gt_iff_lt, if_false] at h
      split_ifs at h with h3
      injection h with h
      injection h with hn hi'
      subst hn hi'
      exact ⟨Prod.Lex.left _ _ (by omega), Or.inr ⟨rfl, by omega⟩⟩
    | mk C V L M R =>
      simp only [orNew] at h
      split_ifs at h with h1 h2 h3
      · injection h with h
        injection h with hn hi'
        subst hn hi'
        have : L.size < (node.mk C V L M R).size := by simp only [node.size]; omega
        exact ⟨Prod.Lex.right _ this, Or.inl ⟨rfl, this⟩⟩
      · injection h with h
        injection h with hn hi'
        subst hn hi'
        have : R.size < (node.mk C V L M R).size := by simp only [node.size]; omega
        exact ⟨Prod.Lex.right _ this, Or.inl ⟨rfl, this⟩⟩
      · injection h with h
        injection h with hn hi'
        subst hn hi'
        exact ⟨Prod.Lex.left _ _ (by omega), Or.inr ⟨rfl, by omega⟩⟩

/-- Below a nil link `add` only makes `Mid` steps on nil links, one index
further each, and stops at the last index of the key. -/
theorem addNext_nil (key : List Byte) (i : Nat) (hi : i < key.length) :
    addNext .nil key i = if i < key.length - 1 then some (.nil, i + 1) else none := by
  simp [addNext, List.getElem?_eq_getElem hi, orNew]

/-- One activation of `add` is its recursive call, if it makes one, followed
by the assignment of the result to a link; it returns at once otherwise. -/
theorem addFuel_step (fuel : Nat) (n : node) (key : List Byte) (value : Any) (i : Nat) :
    match addNext n key i with
    | none => ∃ r, addFuel (fuel + 1) n key value i = some r
    | some (n', i') => ∃ f, addFuel (fuel + 1) n key value i
        = (addFuel fuel n' key value i').map f := by
  rw [addFuel]
  unfold addNext
  cases hk : key[i]? with
  | none => exact ⟨_, rfl⟩
  | some c =>
    simp only
    cases ho : orNew n c with
    | nil => exact ⟨_, rfl⟩
    | mk C V L M R =>
      simp only
      split_ifs with h1 h2 h3
      · exact ⟨_, rfl⟩
      · exact ⟨_, rfl⟩
      · exact ⟨_, rfl⟩
      · exact ⟨_, rfl⟩

/-! ## The order of the result of `MatchPrefix` -/

theorem strLess_cons_same (c : Byte) (a b : List Byte) :
    strLess (c :: a) (c :: b) = strLess a b := by
  simp [strLess]

theorem strLess_cons_lt (c d : Byte) (a b : List Byte) (h : c < d) :
    strLess (c :: a) (d :: b) = true := by
  simp [strLess, h]

theorem strLess_cons_gt (c d : Byte) (a b : List Byte) (h : d < c) :
    strLess (c :: a) (d :: b) = false := by
  simp [strLess, h, not_lt.2 (le_of_lt h)]

theorem strLess_append_same (p a b : List Byte) : strLess (p ++ a) (p ++ b) = strLess a b := by
  induction p with
  | nil => rfl
  | cons c p ih => simpa [strLess] using ih

theorem strLess_append_right (p s : List Byte) (hs : s ≠ []) : strLess p (p ++ s) = true := by
  induction p with
  | nil =>
    cases s with
    | nil => exact absurd rfl hs
    | cons d ds => rfl
  | cons c p ih => simpa [strLess] using ih

theorem entries_key_ne_nil (n : node) (e : List Byte × Any) (he : e ∈ entries n) : e.1 ≠ [] := by
  induction n generalizing e with
  | nil => simp [entries] at he
  | mk C V L M R ihL ihM ihR =>
    simp only [entries, List.mem_append, List.mem_map] at he
    rcases he with ((he | he) | he) | he
    · obtain ⟨_, _, h⟩ := he
      rw [← h]; simp
    · exact ihL e he
    · obtain ⟨_, _, h⟩ := he
      rw [← h]; simp
    · exact ihR e he

/-- In an ordered tree without `Left` links the entries come in ascending
order of their paths. -/
theorem entries_sorted (n : node) (ho : Ordered n = true) (hl : noLeft n = true) :
    ((entries n).map Prod.fst).Pairwise (fun a b => strLess a b = true) := by
  induction n with
  | nil => simp [entries]
  | mk C V L M R _ ihM ihR =>
    simp only [Ordered, Bool.and_eq_true] at ho
    obtain ⟨⟨⟨⟨_, hsr⟩, _⟩, hoM⟩, hoR⟩ := ho
    cases L with
    | mk _ _ _ _ _ => simp [noLeft] at hl
    | nil =>
      simp only [noLeft, Bool.true_and, Bool.and_eq_true] at hl
      have hMeq : ((entries M).map fun e => (C :: e.1, e.2)).map Prod.fst
          = ((entries M).map Prod.fst).map (fun k => C :: k) := by
        simp [List.map_map, Function.comp_def]
      have hR : ∀ k, k ∈ (entries R).map Prod.fst → ∃ c rest, k = c :: rest ∧ C < c := by
        intro k hk
        obtain ⟨e, he, hk⟩ := List.mem_map.1 hk
        obtain ⟨c, rest, hc, hp⟩ := sibAll_head _ R hsr e.1 e.2 he
        exact ⟨c, rest, by rw [← hk, hc], by simpa using hp⟩
      have hM : ∀ k, k ∈ ((entries M).map Prod.fst).map (fun k => C :: k) →
          ∃ d ds, k = C :: d :: ds := by
        intro k hk
        obtain ⟨k', hk', hk⟩ := List.mem_map.1 hk
        obtain ⟨e, he, hek⟩ := List.mem_map.1 hk'
        have hne := entries_key_ne_nil M e he
        rw [hek] at hne
        cases k' with
        | nil => exact absurd rfl hne
        | cons d ds => exact ⟨d, ds, hk.symm⟩
      have hA : ∀ k, k ∈ (V.toList.map fun v => (([C] : List Byte), v)).map Prod.fst →
          k = [C] := by
        intro k hk
        simp only [List.map_map, List.mem_map, Function.comp_apply] at hk
        obtain ⟨_, _, hk⟩ := hk
        exact hk.symm
      simp only [entries, List.map_append, List.map_nil, List.append_nil]
      rw [hMeq, List.pairwise_append, List.pairwise_append]
      refine ⟨⟨?_, ?_, ?_⟩, ihR hoR hl.2, ?_⟩
      · cases V <;> simp
      · rw [List.pairwise_map]
        exact (ihM hoM hl.1).imp (fun h => by rw [strLess_cons_same]; exact h)
      · intro a ha b hb
        obtain ⟨d, ds, hd⟩ := hM b hb
        rw [hA a ha, hd]
        simp [strLess]
      · intro a ha b hb
        obtain ⟨c, rest, hc, hlt⟩ := hR b hb
        rw [hc]
        rcases List.mem_append.1 ha with ha | ha
        · rw [hA a ha]
          exact strLess_cons_lt _ _ _ _ hlt
        · obtain ⟨d, ds, hd⟩ := hM a ha
          rw [hd]
          exact strLess_cons_lt _ _ _ _ hlt

theorem noLeft_find (n : node) (c : Byte) (rest : List Byte) (h : noLeft n = true) :
    noLeft (find n c rest) = true := by
  induction n generalizing c rest with
  | nil => simp [find, noLeft]
  | mk C V L M R ihL ihM ihR =>
    have h' := h
    simp only [noLeft, Bool.and_eq_true] at h'
    obtain ⟨⟨hL, hM⟩, hR⟩ := h'
    simp only [find]
    split_ifs with h1 h2
    · cases L with
      | nil => simp [find, noLeft]
      | mk _ _ _ _ _ => simp at hL
    · exact ihR c rest hR
    · cases rest with
      | nil => exact h
      | cons d ds => exact ihM d ds hM

theorem noLeft_Mid (n : node) (h : noLeft n = true) : noLeft n.Mid = true := by
  cases n with
  | nil => simp [node.Mid, noLeft]
  | mk C V L M R =>
    simp only [noLeft, Bool.and_eq_true] at h
    exact h.1.2

/-- In an ordered tree without `Left` links the entries `MatchPrefix`
collects from a node come in ascending order of their paths. -/
theorem entriesAt_sorted (n : node) (ho : Ordered n = true) (hl : noLeft n = true) :
    ((entriesAt n).map Prod.fst).Pairwise (fun a b => strLess a b = true) := by
  have hs := entries_sorted n.Mid (Ordered_Mid n ho) (noLeft_Mid n hl)
  simp only [entriesAt, List.map_append]
  rw [List.pairwise_append]
  refine ⟨?_, hs, ?_⟩
  · cases n.Value <;> simp
  · intro a ha b hb
    have hk : a = [] := by
      simp only [List.map_map, List.mem_map, Function.comp_apply] at ha
      obtain ⟨_, _, hk⟩ := ha
      exact hk.symm
    obtain ⟨e, he, hek⟩ := List.mem_map.1 hb
    have hne := entries_key_ne_nil _ e he
    rw [hek] at hne
    rw [hk]
    cases b with
    | nil => exact absurd rfl hne
    | cons d ds => rfl

theorem noLeft_chain (c : Byte) (rest : List Byte) (value : Any) :
    noLeft (chain c rest value) = true := by
  induction rest generalizing c with
  | nil => simp [chain, noLeft]
  | cons d ds ih => simp [chain, noLeft, ih d]

/-- Adding a key greater than every stored key to a tree without `Left`
links and without dead branches creates no `Left` link. -/
theorem noLeft_ins (n : node) (c : Byte) (rest : List Byte) (value : Any)
    (hl : noLeft n = true) (hd : noDead n = true)
    (hlt : ∀ e ∈ entries n, strLess e.1 (c :: rest) = true) :
    noLeft (ins n c rest value) = true := by
  induction n generalizing c rest with
  | nil => simpa [ins] using noLeft_chain c rest value
  | mk C V L M R _ ihM ihR =>
    simp only [noDead, Bool.and_eq_true] at hd
    obtain ⟨⟨⟨hv, _⟩, hdM⟩, hdR⟩ := hd
    cases L with
    | mk _ _ _ _ _ => simp [noLeft] at hl
    | nil =>
      simp only [noLeft, Bool.true_and, Bool.and_eq_true] at hl
      have hhead : ∃ e ∈ entries (node.mk C V .nil M R), ∃ t, e.1 = C :: t := by
        cases V with
        | some v0 => exact ⟨([C], v0), by simp [entries], [], rfl⟩
        | none =>
          have hMne : M ≠ .nil := by
            intro hM0
            subst hM0
            simp at hv
          obtain ⟨e', he'⟩ := List.exists_mem_of_ne_nil _ (entries_ne_nil M hdM hMne)
          refine ⟨(C :: e'.1, e'.2), ?_, e'.1, rfl⟩
          simp only [entries, List.mem_append, List.mem_map]
          exact Or.inl (Or.inr ⟨e', he', rfl⟩)
      have h1 : ¬ c < C := by
        intro h1
        obtain ⟨e, he, t, ht⟩ := hhead
        have := hlt e he
        rw [ht, strLess_cons_gt C c t rest h1] at this
        exact absurd this (by simp)
      simp only [ins, if_neg h1]
      split_ifs with h2
      · have hR' := ihR c rest hl.2 hdR (fun e he => hlt e (by
          simp only [entries, List.mem_append]
          exact Or.inr he))
        simp [noLeft, hl.1, hR']
      · have hc := eq_of_not_lt_of_not_gt h1 h2
        subst hc
        cases rest with
        | nil => simp [noLeft, hl.1, hl.2]
        | cons d ds =>
          have hM' := ihM d ds hl.1 hdM (fun e he => by
            have := hlt (c :: e.1, e.2) (by
              simp only [entries, List.mem_append, List.mem_map]
              exact Or.inl (Or.inr ⟨e, he, rfl⟩))
            simpa [strLess_cons_same] using this)
          simp [noLeft, hl.2, hM']

theorem entries_ins_subset (n : node) (ho : Ordered n = true) (c : Byte) (rest : List Byte)
    (value : Any) (e : List Byte × Any) (he : e ∈ entries (ins n c rest value)) :
    e ∈ entries n ∨ e.1 = c :: rest := by
  obtain ⟨c', rest', hk, hv⟩ :=
    find_of_mem_entries _ (Ordered_ins n c rest value ho) e.1 e.2 he
  by_cases hsame : c' :: rest' = c :: rest
  · exact Or.inr (by rw [hk, hsame])
  · rw [find_ins_other n c rest value c' rest' hsame] at hv
    have := mem_entries_of_find n c' rest' e.2 hv
    rw [← hk] at this
    exact Or.inl this

/-- Adding string keys in strictly ascending order creates no `Left` link. -/
theorem noLeft_AddAll_sorted (keys : List (List Byte)) (tree : TST)
    (ho : Ordered tree.root = true) (hd : noDead tree.root = true)
    (hl : noLeft tree.root = true)
    (hs : keys.Pairwise (fun a b => strLess a b = true))
    (hlt : ∀ e ∈ entries tree.root, ∀ k ∈ keys, strLess e.1 k = true) :
    noLeft (AddAll tree (keys.map Any.str)).root = true := by
  induction keys generalizing tree with
  | nil => exact hl
  | cons k ks ih =>
    rw [List.map_cons, AddAll_cons]
    rw [List.pairwise_cons] at hs
    cases k with
    | nil =>
      rw [Add_nil_key tree (Any.str []) rfl]
      exact ih tree ho hd hl hs.2 (fun e he k' hk' => hlt e he k' (List.mem_cons_of_mem _ hk'))
    | cons c rest =>
      rw [Add_cons tree (Any.str (c :: rest)) c rest rfl]
      apply ih
      · exact Ordered_ins _ _ _ _ ho
      · exact noDead_ins _ _ _ _ hd
      · exact noLeft_ins _ c rest _ hl hd (fun e he => hlt e he _ (List.mem_cons_self _ _))
      · exact hs.2
      · intro e he k' hk'
        rcases entries_ins_subset _ ho c rest _ e he with h | h
        · exact hlt e h k' (List.mem_cons_of_mem _ hk')
        · rw [h]
          exact hs.1 k' hk'

/-- On a tree built from string keys, the values `MatchPrefix(c :: rest)`
returns are the strings of their own paths. -/
theorem entriesAt_AddAll_str (keys : List (List Byte)) (c : Byte) (rest : List Byte)
    (e : List Byte × Any)
    (he : e ∈ entriesAt (find (AddAll New (keys.map Any.str)).root c rest)) :
    e.2 = Any.str (c :: rest ++ e.1) := by
  have hl := ((entriesAt_AddAll (keys.map Any.str) c rest).1 e.1 e.2).1 he
  obtain ⟨hk, hmem⟩ := latest_getKey _ _ _ hl
  obtain ⟨k, _, hkv⟩ := List.mem_map.1 hmem
  rw [← hkv] at hk ⊢
  simp only [getKey, Except.ok.injEq] at hk
  rw [hk]

/-! ## When the result of `MatchPrefix` is in ascending order -/

theorem noDead_Mid (n : node) (h : noDead n = true) : noDead n.Mid = true := by
  cases n with
  | nil => simp [node.Mid, noDead]
  | mk C V L M R =>
    simp only [noDead, Bool.and_eq_true] at h
    exact h.1.2

theorem noValueLeft_of_noLeft (n : node) (h : noLeft n = true) : noValueLeft n = true := by
  induction n with
  | nil => rfl
  | mk C V L M R _ ihM ihR =>
    cases L with
    | mk _ _ _ _ _ => simp [noLeft] at h
    | nil =>
      simp only [noLeft, Bool.true_and, Bool.and_eq_true] at h
      cases V <;> simp [noValueLeft, ihM h.1, ihR h.2]

/-- In an ordered tree without dead branches the entries come in ascending
order of their paths exactly when no node with a value has a `Left` link. -/
theorem entries_sorted_iff (n : node) (ho : Ordered n = true) (hd : noDead n = true) :
    ((entries n).map Prod.fst).Pairwise (fun a b => strLess a b = true) ↔
      noValueLeft n = true := by
  induction n with
  | nil => simp [entries, noValueLeft]
  | mk C V L M R ihL ihM ihR =>
    simp only [Ordered, Bool.and_eq_true] at ho
    obtain ⟨⟨⟨⟨hsl, hsr⟩, hoL⟩, hoM⟩, hoR⟩ := ho
    simp only [noDead, Bool.and_eq_true] at hd
    obtain ⟨⟨⟨_, hdL⟩, hdM⟩, hdR⟩ := hd
    have hMeq : ((entries M).map fun e => (C :: e.1, e.2)).map Prod.fst
        = ((entries M).map Prod.fst).map (fun k => C :: k) := by
      simp [List.map_map, Function.comp_def]
    have hA : ∀ k, k ∈ (V.toList.map fun v => (([C] : List Byte), v)).map Prod.fst →
        k = [C] := by
      intro k hk
      simp only [List.map_map, List.mem_map, Function.comp_apply] at hk
      obtain ⟨_, _, hk⟩ := hk
      exact hk.symm
    have hL : ∀ k, k ∈ (entries L).map Prod.fst → ∃ c rest, k = c :: rest ∧ c < C := by
      intro k hk
      obtain ⟨e, he, hk⟩ := List.mem_map.1 hk
      obtain ⟨c, rest, hc, hp⟩ := sibAll_head _ L hsl e.1 e.2 he
      exact ⟨c, rest, by rw [← hk, hc], by simpa using hp⟩
    have hR : ∀ k, k ∈ (entries R).map Prod.fst → ∃ c rest, k = c :: rest ∧ C < c := by
      intro k hk
      obtain ⟨e, he, hk⟩ := List.mem_map.1 hk
      obtain ⟨c, rest, hc, hp⟩ := sibAll_head _ R hsr e.1 e.2 he
      exact ⟨c, rest, by rw [← hk, hc], by simpa using hp⟩
    have hM : ∀ k, k ∈ ((entries M).map Prod.fst).map (fun k => C :: k) →
        ∃ d ds, k = C :: d :: ds := by
      intro k hk
      obtain ⟨k', hk', hk⟩ := List.mem_map.1 hk
      obtain ⟨e, he, hek⟩ := List.mem_map.1 hk'
      have hne := entries_key_ne_nil M e he
      rw [hek] at hne
      cases k' with
      | nil => exact absurd rfl hne
      | cons d ds => exact ⟨d, ds, hk.symm⟩
    have hPM : (((entries M).map Prod.fst).map (fun k => C :: k)).Pairwise
        (fun a b => strLess a b = true) ↔
        ((entries M).map Prod.fst).Pairwise (fun a b => strLess a b = true) := by
      rw [List.pairwise_map]
      simp only [strLess_cons_same]
    simp only [entries, List.map_append, noValueLeft, Bool.and_eq_true]
    rw [hMeq, List.pairwise_append, List.pairwise_append, List.pairwise_append, hPM,
      ihL hoL hdL, ihM hoM hdM, ihR hoR hdR]
    constructor
    · rintro ⟨⟨⟨_, hnL, hAL⟩, hnM, _⟩, hnR, _⟩
      refine ⟨⟨⟨?_, hnL⟩, hnM⟩, hnR⟩
      cases V with
      | none => rfl
      | some v =>
        cases L with
        | nil => rfl
        | mk C' V' L' M' R' =>
          obtain ⟨e, he⟩ := List.exists_mem_of_ne_nil _
            (entries_ne_nil (node.mk C' V' L' M' R') hdL (by simp))
          have hk : e.1 ∈ (entries (node.mk C' V' L' M' R')).map Prod.fst :=
            List.mem_map.2 ⟨e, he, rfl⟩
          obtain ⟨c, rest, hc, hlt⟩ := hL e.1 hk
          have := hAL [C] (by simp) e.1 hk
          rw [hc, strLess_cons_gt C c [] rest hlt] at this
          exact absurd this (by simp)
    · rintro ⟨⟨⟨hcond, hnL⟩, hnM⟩, hnR⟩
      refine ⟨⟨⟨?_, hnL, ?_⟩, hnM, ?_⟩, hnR, ?_⟩
      · cases V <;> simp
      · intro a ha b hb
        cases V with
        | none => simp at ha
        | some v =>
          cases L with
          | nil => simp [entries] at hb
          | mk _ _ _ _ _ => simp at hcond
      · intro a ha b hb
        obtain ⟨d, ds, hd⟩ := hM b hb
        rw [hd]
        rcases List.mem_append.1 ha with ha | ha
        · rw [hA a ha]
          simp [strLess]
        · obtain ⟨c, rest, hc, hlt⟩ := hL a ha
          rw [hc]
          exact strLess_cons_lt _ _ _ _ hlt
      · intro a ha b hb
        obtain ⟨c, rest, hc, hgt⟩ := hR b hb
        rw [hc]
        rcases List.mem_append.1 ha with ha | ha
        · rcases List.mem_append.1 ha with ha | ha
          · rw [hA a ha]
            exact strLess_cons_lt _ _ _ _ hgt
          · obtain ⟨c', rest', hc', hlt⟩ := hL a ha
            rw [hc']
            exact strLess_cons_lt _ _ _ _ (lt_trans hlt hgt)
        · obtain ⟨d, ds, hd⟩ := hM a ha
          rw [hd]
          exact strLess_cons_lt _ _ _ _ hgt

/-- The entries `MatchPrefix` collects from a node of an ordered tree
without dead branches come in ascending order of their paths exactly when no
node with a value below the `Mid` link of that node has a `Left` link. -/
theorem entriesAt_sorted_iff (n : node) (ho : Ordered n = true) (hd : noDead n = true) :
    ((entriesAt n).map Prod.fst).Pairwise (fun a b => strLess a b = true) ↔
      noValueLeft n.Mid = true := by
  rw [← entries_sorted_iff n.Mid (Ordered_Mid n ho) (noDead_Mid n hd)]
  simp only [entriesAt, List.map_append]
  rw [List.pairwise_append]
  constructor
  · rintro ⟨_, h, _⟩
    exact h
  · intro h
    refine ⟨?_, h, ?_⟩
    · cases n.Value <;> simp
    · intro a ha b hb
      have hk : a = [] := by
        simp only [List.map_map, List.mem_map, Function.comp_apply] at ha
        obtain ⟨_, _, hk⟩ := ha
        exact hk.symm
      obtain ⟨e, he, hek⟩ := List.mem_map.1 hb
      have hne := entries_key_ne_nil _ e he
      rw [hek] at hne
      rw [hk]
      cases b with
      | nil => exact absurd rfl hne
      | cons d ds => rfl

/-! ## Claims -/

/-- C1 (round trip).  For every tree, in particular every tree reachable from
`New()` by `Add` calls, and every item whose key is non-empty (a non-empty
string, or an `Item` with a non-empty `Key()`), `Add(item)` returns normally
and `Get` of the key of the item then returns exactly that item. -/
theorem add_get_roundtrip (tree : TST) (item : Any) (key : List Byte)
    (hkey : getKey item = .ok key) (hne : key ≠ []) :
    (Add tree item).2 = none ∧ Get (Add tree item).1 key = .ok (some item) := by
  refine ⟨?_, Get_Add_same tree item key hkey hne⟩
  cases key with
  | nil => exact absurd rfl hne
  | cons c rest => rw [Add_cons tree item c rest hkey]

theorem add_get_roundtrip_witness :
    getKey (Any.item [99, 97, 110] 3) = .ok [99, 97, 110] ∧ ([99, 97, 110] : List Byte) ≠ [] ∧
      (Add (AddAll New [Any.str [99, 97, 116]]) (Any.item [99, 97, 110] 3)).2 = none ∧
      Get (Add (AddAll New [Any.str [99, 97, 116]]) (Any.item [99, 97, 110] 3)).1 [99, 97, 110]
        = .ok (some (Any.item [99, 97, 110] 3)) :=
  ⟨rfl, by decide,
    add_get_roundtrip (AddAll New [Any.str [99, 97, 116]]) (Any.item [99, 97, 110] 3)
      [99, 97, 110] rfl (by decide)⟩

/-- C2 (miss law for non-empty keys).  For every tree built from `New()` by
`Add` calls with non-empty keys and every non-empty query `q` that is the key
of none of those calls, `Get(q)` returns nil; a strict prefix of a stored key,
an extension of a stored key and any query on the empty tree are instances. -/
theorem get_miss (items : List Any) (q : List Byte)
    (_hitems : ∀ item ∈ items, hasNonEmptyKey item = true) (hq : q ≠ [])
    (hmiss : ∀ item ∈ items, getKey item ≠ .ok q) :
    Get (AddAll New items) q = .ok none := by
  rw [Get_AddAll items New q hq, (latest_eq_none items q).2 hmiss]
  exact Get_New q

theorem get_miss_witness :
    (∀ item ∈ [Any.str [116, 111, 109]], hasNonEmptyKey item = true) ∧
      ([116, 111] : List Byte) ≠ [] ∧
      (∀ item ∈ [Any.str [116, 111, 109]], getKey item ≠ .ok [116, 111]) ∧
      Get (AddAll New [Any.str [116, 111, 109]]) [116, 111] = .ok none :=
  ⟨by decide, by decide, by simp [getKey],
    get_miss [Any.str [116, 111, 109]] [116, 111] (by decide) (by decide) (by simp [getKey])⟩

/-- C3 (the code at the failing input).  After `Add("cat")`, `Add("car")`,
`Add("tom")`, `Add("c")` the call `Get("")` returns the value of the root
node, the string "c", not nil. -/
theorem get_empty_key_returns_root_value :
    Get (AddAll New [Any.str [99, 97, 116], Any.str [99, 97, 114], Any.str [116, 111, 109],
      Any.str [99]]) [] = .ok (some (Any.str [99])) := by
  rw [AddAll_root, Get_nil_key]
  rfl

/-- C4 (prefix inclusion).  For every tree built from `New()` by `Add` calls
with non-empty keys, every stored key `k`, `v` being the item of the latest
`Add` with that key, and every non-empty prefix `p` of `k` (`p = k`
included), `MatchPrefix(p)` returns normally and its result contains `v`. -/
theorem matchPrefix_complete (items : List Any) (k p : List Byte) (v : Any)
    (_hitems : ∀ item ∈ items, hasNonEmptyKey item = true) (hp : p ≠ []) (hpk : p <+: k)
    (hv : latest items k = some v) :
    ∃ out, MatchPrefix (AddAll New items) p = .ok out ∧ v ∈ out := by
  cases p with
  | nil => exact absurd rfl hp
  | cons c rest =>
    obtain ⟨s, hs⟩ := hpk
    subst hs
    refine ⟨_, MatchPrefix_cons _ c rest, ?_⟩
    exact List.mem_map.2 ⟨(s, v), ((entriesAt_AddAll items c rest).1 s v).2 hv, rfl⟩

theorem matchPrefix_complete_witness :
    (∀ item ∈ [Any.item [99, 97, 110] 3, Any.str [99, 97, 116]], hasNonEmptyKey item = true) ∧
      ([99, 97] : List Byte) ≠ [] ∧ ([99, 97] : List Byte) <+: [99, 97, 110] ∧
      latest [Any.item [99, 97, 110] 3, Any.str [99, 97, 116]] [99, 97, 110]
        = some (Any.item [99, 97, 110] 3) ∧
      ∃ out, MatchPrefix (AddAll New [Any.item [99, 97, 110] 3, Any.str [99, 97, 116]]) [99, 97]
        = .ok out ∧ Any.item [99, 97, 110] 3 ∈ out :=
  ⟨by decide, by decide, by decide, by decide,
    matchPrefix_complete [Any.item [99, 97, 110] 3, Any.str [99, 97, 116]] [99, 97, 110] [99, 97]
      (Any.item [99, 97, 110] 3) (by decide) (by decide) (by decide) (by decide)⟩

/-- C5 (prefix exclusion and exactness).  For every tree built from `New()`
by `Add` calls with non-empty keys and every non-empty prefix `p`,
`MatchPrefix(p)` returns normally; every element of the result is the value
stored for its own key, a key that has `p` as a prefix; the keys of the
result are, up to order, the distinct stored keys having prefix `p`, each
once, so the length of the result is their number; and the result is empty
when no stored key has prefix `p`. -/
theorem matchPrefix_sound (items : List Any) (p : List Byte)
    (_hitems : ∀ item ∈ items, hasNonEmptyKey item = true) (hp : p ≠ []) :
    ∃ out, MatchPrefix (AddAll New items) p = .ok out ∧
      (∀ v ∈ out, ∃ k, getKey v = .ok k ∧ p <+: k ∧
        Get (AddAll New items) k = .ok (some v)) ∧
      (out.map keyOf).Perm (((storedKeys items).filter (fun k => p <+: k)).map some) ∧
      out.length = ((storedKeys items).filter (fun k => p <+: k)).length ∧
      ((∀ k ∈ storedKeys items, ¬ p <+: k) → out = []) := by
  cases p with
  | nil => exact absurd rfl hp
  | cons c rest =>
    obtain ⟨hmem, hperm⟩ := entriesAt_AddAll items c rest
    have hkeys : ((entriesAt (find (AddAll New items).root c rest)).map Prod.snd).map keyOf
        = (((entriesAt (find (AddAll New items).root c rest)).map Prod.fst).map
            (fun s => c :: rest ++ s)).map some := by
      simp only [List.map_map]
      apply List.map_congr_left
      intro e he
      exact (keyOf_eq_some _ _).2 (latest_getKey items _ e.2 ((hmem e.1 e.2).1 he)).1
    have hP : (((entriesAt (find (AddAll New items).root c rest)).map Prod.snd).map keyOf).Perm
        (((storedKeys items).filter (fun k => (c :: rest) <+: k)).map some) := by
      rw [hkeys]
      exact hperm.map some
    have hlen : ((entriesAt (find (AddAll New items).root c rest)).map Prod.snd).length
        = ((storedKeys items).filter (fun k => (c :: rest) <+: k)).length := by
      simpa using hP.length_eq
    refine ⟨_, MatchPrefix_cons _ c rest, ?_, hP, hlen, ?_⟩
    · intro v hvo
      obtain ⟨e, he, hev⟩ := List.mem_map.1 hvo
      subst hev
      have hl := (hmem e.1 e.2).1 he
      exact ⟨c :: rest ++ e.1, (latest_getKey items _ e.2 hl).1, List.prefix_append _ _,
        (Get_AddAll_New_iff items _ (by simp) e.2).2 hl⟩
    · intro hnone
      have hnil : (storedKeys items).filter (fun k => (c :: rest) <+: k) = [] := by
        rw [List.filter_eq_nil_iff]
        intro k hk
        simpa using hnone k hk
      rw [hnil] at hlen
      exact List.length_eq_zero.1 hlen

theorem matchPrefix_sound_witness :
    (∀ item ∈ [Any.str [99, 97, 116], Any.str [99, 97, 114], Any.str [116, 111, 109],
        Any.str [99]], hasNonEmptyKey item = true) ∧
      ([99] : List Byte) ≠ [] ∧
      ∃ out, MatchPrefix (AddAll New [Any.str [99, 97, 116], Any.str [99, 97, 114],
          Any.str [116, 111, 109], Any.str [99]]) [99] = .ok out ∧
        (∀ v ∈ out, ∃ k, getKey v = .ok k ∧ [99] <+: k ∧
          Get (AddAll New [Any.str [99, 97, 116], Any.str [99, 97, 114],
            Any.str [116, 111, 109], Any.str [99]]) k = .ok (some v)) ∧
        (out.map keyOf).Perm (((storedKeys [Any.str [99, 97, 116], Any.str [99, 97, 114],
          Any.str [116, 111, 109], Any.str [99]]).filter (fun k => [99] <+: k)).map some) ∧
        out.length = ((storedKeys [Any.str [99, 97, 116], Any.str [99, 97, 114],
          Any.str [116, 111, 109], Any.str [99]]).filter (fun k => [99] <+: k)).length ∧
        ((∀ k ∈ storedKeys [Any.str [99, 97, 116], Any.str [99, 97, 114],
          Any.str [116, 111, 109], Any.str [99]], ¬ [99] <+: k) → out = []) :=
  ⟨by decide, by decide,
    matchPrefix_sound [Any.str [99, 97, 116], Any.str [99, 97, 114], Any.str [116, 111, 109],
      Any.str [99]] [99] (by decide) (by decide)⟩

/-- C6 (empty-prefix law).  For every tree, empty or not, `MatchPrefix("")`
returns the empty sequence. -/
theorem matchPrefix_empty (tree : TST) : MatchPrefix tree [] = .ok [] := by
  simp [MatchPrefix]

/-- C7 (unsupported item type).  `Add(item)` panics with the
unsupported-item-type failure exactly when the item is neither a string nor
a value implementing `Item`, and the tree after such a call is the tree
before it. -/
theorem add_unsupported_item (tree : TST) (item : Any) :
    ((Add tree item).2 = some .unsupportedItemType ↔ ∃ x, item = Any.other x) ∧
      ((Add tree item).2 = some .unsupportedItemType → (Add tree item).1 = tree) := by
  cases item with
  | str s =>
    cases s with
    | nil => simp [Add_nil_key _ (Any.str []) rfl]
    | cons c rest => simp [Add_cons _ (Any.str (c :: rest)) c rest rfl]
  | item key payload =>
    cases key with
    | nil => simp [Add_nil_key _ (Any.item [] payload) rfl]
    | cons c rest => simp [Add_cons _ (Any.item (c :: rest) payload) c rest rfl]
  | other x => simp [Add_error _ (Any.other x) .unsupportedItemType rfl]

/-- C9 (the code at the failing input).  The lists `["c", "d"]` and
`["d", "c"]` are permutations of each other with distinct non-empty keys, and
`Get("")` returns "c" on the tree built from the first and "d" on the tree
built from the second. -/
theorem get_empty_key_depends_on_order :
    List.Perm [Any.str [99], Any.str [100]] [Any.str [100], Any.str [99]] ∧
      Get (AddAll New [Any.str [99], Any.str [100]]) [] = .ok (some (Any.str [99])) ∧
      Get (AddAll New [Any.str [100], Any.str [99]]) [] = .ok (some (Any.str [100])) := by
  refine ⟨List.Perm.swap _ _ _, ?_, ?_⟩
  · rw [AddAll_root, Get_nil_key]; rfl
  · rw [AddAll_root, Get_nil_key]; rfl

/-- C10 (`Add` does not disturb other keys).  For every tree and every
non-empty query `q`: `Get(q)` after `Add` of an item with a non-empty key
different from `q` equals `Get(q)` before it, and so does `Get(q)` after any
number of `Add` calls whose keys are non-empty and different from `q`. -/
theorem add_frame (tree : TST) (q : List Byte) (hq : q ≠ []) :
    (∀ (item : Any) (k : List Byte), getKey item = .ok k → k ≠ [] → q ≠ k →
        Get (Add tree item).1 q = Get tree q) ∧
      (∀ later : List Any,
        (∀ item ∈ later, hasNonEmptyKey item = true ∧ getKey item ≠ .ok q) →
        Get (AddAll tree later) q = Get tree q) := by
  constructor
  · intro item k hk _ hqk
    apply Get_Add_other tree item q hq
    rw [hk]
    intro h
    injection h with h
    exact hqk h.symm
  · intro later hlater
    rw [Get_AddAll later tree q hq, (latest_eq_none later q).2 (fun item hi => (hlater item hi).2)]

theorem add_frame_witness :
    ([99, 97, 116] : List Byte) ≠ [] ∧
      (∀ (item : Any) (k : List Byte), getKey item = .ok k → k ≠ [] → [99, 97, 116] ≠ k →
        Get (Add (AddAll New [Any.str [99, 97, 116]]) item).1 [99, 97, 116]
          = Get (AddAll New [Any.str [99, 97, 116]]) [99, 97, 116]) ∧
      (∀ later : List Any,
        (∀ item ∈ later, hasNonEmptyKey item = true ∧ getKey item ≠ .ok [99, 97, 116]) →
        Get (AddAll (AddAll New [Any.str [99, 97, 116]]) later) [99, 97, 116]
          = Get (AddAll New [Any.str [99, 97, 116]]) [99, 97, 116]) :=
  ⟨by decide, add_frame (AddAll New [Any.str [99, 97, 116]]) [99, 97, 116] (by decide)⟩

/-- C8 (overwrite in place).  For every tree, in particular every reachable
one, and every non-empty key `k` already stored in it, `Add` of another item
with key `k` returns normally and yields a tree with the same nodes,
characters and links that differs only in the value of the node where `k`
terminates, now the new item; the node count and the set of stored keys are
unchanged and `Get(k)` returns the new item. -/
theorem add_overwrite (tree : TST) (item old : Any) (k : List Byte)
    (hkey : getKey item = .ok k) (hne : k ≠ []) (hstored : Get tree k = .ok (some old)) :
    (Add tree item).2 = none ∧
      overwrittenAt tree.root (Add tree item).1.root k 0 item = true ∧
      eraseValues (Add tree item).1.root = eraseValues tree.root ∧
      (Add tree item).1.root.size = tree.root.size ∧
      (∀ q : List Byte, q ≠ [] →
        (Get (Add tree item).1 q = .ok none ↔ Get tree q = .ok none)) ∧
      Get (Add tree item).1 k = .ok (some item) := by
  cases k with
  | nil => exact absurd rfl hne
  | cons c rest =>
    have hfind : find tree.root c rest ≠ .nil := by
      rw [Get_cons] at hstored
      injection hstored with hv
      exact find_ne_nil_of_Value hv
    have hsame := Get_Add_same tree item (c :: rest) hkey hne
    rw [Add_cons tree item c rest hkey] at hsame ⊢
    refine ⟨rfl, ?_, (ins_of_find _ c rest item hfind).1, (ins_of_find _ c rest item hfind).2,
      ?_, hsame⟩
    · have h := overwrittenAt_ins (c :: rest) item tree.root 0 (by simp) (by simpa using hfind)
      simpa using h
    · intro q hq
      by_cases hqk : q = c :: rest
      · subst hqk
        rw [hsame, hstored]
        simp
      · have h := Get_Add_other tree item q hq (by
          rw [hkey]
          intro h
          injection h with h
          exact hqk h.symm)
        rw [Add_cons tree item c rest hkey] at h
        rw [h]

theorem add_overwrite_witness :
    getKey (Any.item [99, 97, 116] 7) = .ok [99, 97, 116] ∧ ([99, 97, 116] : List Byte) ≠ [] ∧
      Get (AddAll New [Any.str [99, 97, 116], Any.str [99]]) [99, 97, 116]
        = .ok (some (Any.str [99, 97, 116])) ∧
      (Add (AddAll New [Any.str [99, 97, 116], Any.str [99]]) (Any.item [99, 97, 116] 7)).2
        = none ∧
      overwrittenAt (AddAll New [Any.str [99, 97, 116], Any.str [99]]).root
        (Add (AddAll New [Any.str [99, 97, 116], Any.str [99]])
          (Any.item [99, 97, 116] 7)).1.root [99, 97, 116] 0 (Any.item [99, 97, 116] 7) = true ∧
      eraseValues (Add (AddAll New [Any.str [99, 97, 116], Any.str [99]])
          (Any.item [99, 97, 116] 7)).1.root
        = eraseValues (AddAll New [Any.str [99, 97, 116], Any.str [99]]).root ∧
      (Add (AddAll New [Any.str [99, 97, 116], Any.str [99]])
          (Any.item [99, 97, 116] 7)).1.root.size
        = (AddAll New [Any.str [99, 97, 116], Any.str [99]]).root.size ∧
      (∀ q : List Byte, q ≠ [] →
        (Get (Add (AddAll New [Any.str [99, 97, 116], Any.str [99]])
            (Any.item [99, 97, 116] 7)).1 q = .ok none ↔
          Get (AddAll New [Any.str [99, 97, 116], Any.str [99]]) q = .ok none)) ∧
      Get (Add (AddAll New [Any.str [99, 97, 116], Any.str [99]]) (Any.item [99, 97, 116] 7)).1
        [99, 97, 116] = .ok (some (Any.item [99, 97, 116] 7)) :=
  have hstored : Get (AddAll New [Any.str [99, 97, 116], Any.str [99]]) [99, 97, 116]
      = .ok (some (Any.str [99, 97, 116])) := by
    rw [AddAll_root, Get_cons]; rfl
  ⟨rfl, by decide, hstored,
    add_overwrite (AddAll New [Any.str [99, 97, 116], Any.str [99]])
      (Any.item [99, 97, 116] 7) (Any.str [99, 97, 116]) [99, 97, 116] rfl (by decide) hstored⟩

/-- C11 (`Get` never indexes out of range).  For every tree and every key,
the zero-length key included, `get` started at index 0 (or at any index
inside the key) and `Get` return normally: no index expression `key[i]` is
evaluated with `i` outside the key. -/
theorem get_never_out_of_range (tree : TST) (key : List Byte) :
    (∀ (n : node) (i : Nat), key = [] ∨ i < key.length → ∃ m, get n key i = .ok m) ∧
      (∃ m, get tree.root key 0 = .ok m) ∧ (∃ r, Get tree key = .ok r) := by
  refine ⟨fun n i h => get_ok n key i h, ?_, Get_ok tree key⟩
  apply get_ok
  cases key with
  | nil => exact Or.inl rfl
  | cons c rest => exact Or.inr (by simp)

/-- C15 (traversal order of `MatchPrefix`).  For every tree and non-empty
prefix `p`, with `S` the node the `get` traversal returns for `p`,
`MatchPrefix(p)` is the value of `S`, if present, followed by `walk(S.Mid)`;
it is empty when no node is found; and `matchPrefix` appends `walk(n)` to the
queue whatever prefix string it is passed. -/
theorem matchPrefix_traversal_order (tree : TST) (p : List Byte) (hp : p ≠ []) :
    (∃ S, get tree.root p 0 = .ok S ∧
        MatchPrefix tree p = .ok (S.Value.toList ++ walk S.Mid)) ∧
      (get tree.root p 0 = .ok .nil → MatchPrefix tree p = .ok []) ∧
      (∀ (n : node) (pfx pfx' : List Byte) (queue : List Any),
        matchPrefix n pfx queue = matchPrefix n pfx' queue) ∧
      (∀ (n : node) (pfx : List Byte) (queue : List Any),
        matchPrefix n pfx queue = queue ++ walk n) := by
  cases p with
  | nil => exact absurd rfl hp
  | cons c rest =>
    refine ⟨⟨_, get_cons _ c rest, MatchPrefix_eq_walk tree c rest⟩, ?_, ?_,
      fun n pfx queue => matchPrefix_eq_walk n pfx queue⟩
    · intro h
      rw [get_cons] at h
      injection h with h
      rw [MatchPrefix_eq_walk, h]
      rfl
    · intro n pfx pfx' queue
      rw [matchPrefix_eq_walk, matchPrefix_eq_walk]

theorem matchPrefix_traversal_order_witness :
    ([99] : List Byte) ≠ [] ∧
      (∃ S, get (AddAll New [Any.str [99, 97, 116], Any.str [99, 97, 114],
          Any.str [99]]).root [99] 0 = .ok S ∧
        MatchPrefix (AddAll New [Any.str [99, 97, 116], Any.str [99, 97, 114], Any.str [99]])
          [99] = .ok (S.Value.toList ++ walk S.Mid)) ∧
      (get (AddAll New [Any.str [99, 97, 116], Any.str [99, 97, 114],
          Any.str [99]]).root [99] 0 = .ok .nil →
        MatchPrefix (AddAll New [Any.str [99, 97, 116], Any.str [99, 97, 114], Any.str [99]])
          [99] = .ok []) ∧
      (∀ (n : node) (pfx pfx' : List Byte) (queue : List Any),
        matchPrefix n pfx queue = matchPrefix n pfx' queue) ∧
      (∀ (n : node) (pfx : List Byte) (queue : List Any),
        matchPrefix n pfx queue = queue ++ walk n) :=
  ⟨by decide,
    matchPrefix_traversal_order
      (AddAll New [Any.str [99, 97, 116], Any.str [99, 97, 114], Any.str [99]]) [99]
      (by decide)⟩

/-- C17 (zero-length key on `Add`).  For every tree, `Add` of an item whose
key is the empty string panics with the index-out-of-range failure (at
`key[0]`, the first statement of `add`) and leaves the tree unchanged; `Add`
of an item whose key is non-empty returns normally, `add` evaluating no
index expression outside the key. -/
theorem add_zero_length_key (tree : TST) (item : Any) :
    (getKey item = .ok [] →
        add tree.root [] item 0 = .error .indexOutOfRange ∧
        Add tree item = (tree, some .indexOutOfRange)) ∧
      (∀ (c : Byte) (rest : List Byte), getKey item = .ok (c :: rest) →
        (∃ n, add tree.root (c :: rest) item 0 = .ok n) ∧ (Add tree item).2 = none) := by
  constructor
  · intro h
    exact ⟨add_nil_key _ _, Add_nil_key tree item h⟩
  · intro c rest h
    refine ⟨⟨_, add_cons _ c rest item⟩, ?_⟩
    rw [Add_cons tree item c rest h]

/-- C18 (what `Get("")` observes).  For every tree built from `New()` by a
non-empty sequence of `Add` calls with non-empty keys, the first key
starting with the byte `c`: `Get("")` returns the value of the root node,
which is what `Get` of the one-byte key `c` returns, so it is a value exactly
when that one-byte key is stored; and it depends on the insertion order
(`"c"` after adding "c", "d" and `"d"` after adding "d", "c"). -/
theorem get_empty_key_observes_root (first : Any) (later : List Any) (c : Byte)
    (r : List Byte) (hfirst : getKey first = .ok (c :: r))
    (_hlater : ∀ item ∈ later, hasNonEmptyKey item = true) :
    Get (AddAll New (first :: later)) [] = .ok (AddAll New (first :: later)).root.Value ∧
      Get (AddAll New (first :: later)) [] = Get (AddAll New (first :: later)) [c] ∧
      (∀ v, Get (AddAll New (first :: later)) [] = .ok (some v) ↔
        latest (first :: later) [c] = some v) ∧
      Get (AddAll New [Any.str [99], Any.str [100]]) []
        ≠ Get (AddAll New [Any.str [100], Any.str [99]]) [] := by
  have hroot : ∃ V L M R, (AddAll New (first :: later)).root = .mk c V L M R := by
    rw [AddAll_cons]
    obtain ⟨V, M, hc⟩ := chain_root c r first
    apply AddAll_root_char later (Add New first).1 c V .nil M .nil
    rw [Add_cons New first c r hfirst]
    simpa [New, ins] using hc
  obtain ⟨V, L, M, R, hroot⟩ := hroot
  obtain ⟨h0, h1⟩ := Get_root_char _ c V L M R hroot
  refine ⟨h0, by rw [h0, h1], ?_, ?_⟩
  · intro v
    rw [h0, ← h1]
    exact Get_AddAll_New_iff (first :: later) [c] (by simp) v
  · rw [AddAll_root, AddAll_root, Get_nil_key, Get_nil_key]
    intro h
    injection h with h
    revert h
    decide

theorem get_empty_key_observes_root_witness :
    getKey (Any.str [99]) = .ok [99] ∧
      (∀ item ∈ ([] : List Any), hasNonEmptyKey item = true) ∧
      Get (AddAll New [Any.str [99]]) [] = .ok (AddAll New [Any.str [99]]).root.Value ∧
      Get (AddAll New [Any.str [99]]) [] = Get (AddAll New [Any.str [99]]) [99] ∧
      Get (AddAll New [Any.str [99]]) [] = .ok (some (Any.str [99])) :=
  have h := get_empty_key_observes_root (Any.str [99]) [] 99 [] rfl (by simp)
  ⟨rfl, by simp, h.1, h.2.1, (h.2.2.1 (Any.str [99])).2 (by decide)⟩

/-- C12 (sibling ordering invariant).  In every tree reachable from `New()`
by `Add` calls, for every node `N`, every node of the sibling tree under
`N.Left` has a character less than `N.C` and every node of the sibling tree
under `N.Right` a character greater than `N.C`, the direct children
included; so the characters of the sibling tree of the root and of the
sibling tree under every `Mid` link are pairwise distinct.  `Add` preserves
the invariant on every tree that satisfies it. -/
theorem sibling_order_invariant (tree : TST) (h : Reachable tree) :
    Ordered tree.root = true ∧
      (∀ e ∈ nodesAt tree.root, ∀ (C : Byte) (V : Option Any) (L M R : node),
        e.2 = .mk C V L M R →
          (∀ x ∈ sibChars L, x < C) ∧ (∀ x ∈ sibChars R, C < x) ∧
          (∀ (c' : Byte) (V' : Option Any) (L' M' R' : node),
            L = .mk c' V' L' M' R' → c' < C) ∧
          (∀ (c' : Byte) (V' : Option Any) (L' M' R' : node),
            R = .mk c' V' L' M' R' → C < c')) ∧
      (sibChars tree.root).Nodup ∧
      (∀ e ∈ nodesAt tree.root, (sibChars e.2.Mid).Nodup) ∧
      (∀ (t : TST) (item : Any), Ordered t.root = true →
        Ordered (Add t item).1.root = true) := by
  have ho := Ordered_Reachable tree h
  refine ⟨ho, ?_, sibChars_nodup _ ho, ?_, ?_⟩
  · intro e he C V L M R hN
    have hoN := Ordered_of_mem_nodesAt tree.root ho e.1 e.2 he
    rw [hN] at hoN
    simp only [Ordered, Bool.and_eq_true] at hoN
    obtain ⟨⟨⟨⟨hsl, hsr⟩, _⟩, _⟩, _⟩ := hoN
    have hl := (sibAll_iff _ L).1 hsl
    have hr := (sibAll_iff _ R).1 hsr
    simp only [decide_eq_true_eq] at hl hr
    refine ⟨hl, hr, ?_, ?_⟩
    · intro c' V' L' M' R' hL
      apply hl
      rw [hL]
      simp [sibChars]
    · intro c' V' L' M' R' hR
      apply hr
      rw [hR]
      simp [sibChars]
  · intro e he
    exact sibChars_nodup _ (Ordered_Mid _ (Ordered_of_mem_nodesAt tree.root ho e.1 e.2 he))
  · intro t item hot
    rw [Add_fst]
    exact Ordered_insItem _ _ hot

theorem sibling_order_invariant_witness :
    Reachable (AddAll New [Any.str [99, 97, 116], Any.str [99, 97, 114],
        Any.str [116, 111, 109], Any.str [99]]) ∧
      Ordered (AddAll New [Any.str [99, 97, 116], Any.str [99, 97, 114],
        Any.str [116, 111, 109], Any.str [99]]).root = true ∧
      (sibChars (AddAll New [Any.str [99, 97, 116], Any.str [99, 97, 114],
        Any.str [116, 111, 109], Any.str [99]]).root).Nodup :=
  have hr := Reachable_AddAll New [Any.str [99, 97, 116], Any.str [99, 97, 114],
    Any.str [116, 111, 109], Any.str [99]] Reachable.new
  have h := sibling_order_invariant (AddAll New [Any.str [99, 97, 116],
    Any.str [99, 97, 114], Any.str [116, 111, 109], Any.str [99]]) hr
  ⟨hr, h.1, h.2.2.1⟩

/-- C19 (no dead branches).  In every tree reachable from `New()` by `Add`
calls, every node whose `Mid` link is nil carries a value and every node
lies on the path of a stored key; so for every non-empty prefix `p`,
`MatchPrefix(p)` is non-empty if and only if the `get` traversal finds a
node for `p`. -/
theorem no_dead_branches (tree : TST) (h : Reachable tree) :
    noDead tree.root = true ∧
      (∀ e ∈ nodesAt tree.root, e.2.Mid = .nil → e.2.Value ≠ none) ∧
      (∀ e ∈ nodesAt tree.root, ∃ k v, e.1 <+: k ∧ Get tree k = .ok (some v)) ∧
      (∀ p : List Byte, p ≠ [] →
        ((∃ out, MatchPrefix tree p = .ok out ∧ out ≠ []) ↔ found tree.root p = true)) := by
  have ho := Ordered_Reachable tree h
  have hd := noDead_Reachable tree h
  refine ⟨hd, ?_, ?_, ?_⟩
  · intro e he hmid
    obtain ⟨c, rest, _, hf, hne⟩ := find_of_mem_nodesAt tree.root ho e.1 e.2 he
    have hdN := noDead_find tree.root c rest hd
    rw [hf] at hdN
    cases hN : e.2 with
    | nil => exact absurd hN hne
    | mk C V L M R =>
      rw [hN] at hdN hmid
      simp only [node.Mid] at hmid
      subst hmid
      cases V with
      | none => simp [noDead] at hdN
      | some v => simp [node.Value]
  · intro e he
    obtain ⟨c, rest, hk, hf, hne⟩ := find_of_mem_nodesAt tree.root ho e.1 e.2 he
    have hdN := noDead_find tree.root c rest hd
    have hent := entriesAt_ne_nil _ hdN (by rw [hf]; exact hne)
    obtain ⟨⟨s, v⟩, hsv⟩ := List.exists_mem_of_ne_nil _ hent
    refine ⟨c :: rest ++ s, v, ?_, (mem_entriesAt_iff_Get tree ho c rest s v).1 hsv⟩
    rw [hk]
    exact List.prefix_append _ _
  · intro p hp
    cases p with
    | nil => exact absurd rfl hp
    | cons c rest =>
      rw [found_cons, MatchPrefix_cons]
      constructor
      · rintro ⟨out, hout, hne⟩ hnil
        injection hout with hout
        rw [hnil] at hout
        exact hne (by rw [← hout]; rfl)
      · intro hne
        refine ⟨_, rfl, ?_⟩
        intro hnil
        exact entriesAt_ne_nil _ (noDead_find tree.root c rest hd) hne (List.map_eq_nil_iff.1 hnil)

theorem no_dead_branches_witness :
    Reachable (AddAll New [Any.str [99, 97, 116], Any.str [99]]) ∧
      noDead (AddAll New [Any.str [99, 97, 116], Any.str [99]]).root = true ∧
      (∀ p : List Byte, p ≠ [] →
        ((∃ out, MatchPrefix (AddAll New [Any.str [99, 97, 116], Any.str [99]]) p = .ok out ∧
            out ≠ []) ↔
          found (AddAll New [Any.str [99, 97, 116], Any.str [99]]).root p = true)) :=
  have hr := Reachable_AddAll New [Any.str [99, 97, 116], Any.str [99]] Reachable.new
  have h := no_dead_branches (AddAll New [Any.str [99, 97, 116], Any.str [99]]) hr
  ⟨hr, h.1, h.2.2.2⟩

/-- C13 (node growth).  For every tree, in particular every reachable one,
and every item with a non-empty key `k`, there is an `m` that is the length
of the longest prefix of `k` for which the `get` traversal finds a node
(`m = 0` if there is none) such that `Add` increases the number of nodes by
exactly `len(k) - m`; every node that existed keeps its character and
position, and at most `len(k)` nodes are created. -/
theorem add_node_growth (tree : TST) (item : Any) (k : List Byte)
    (hkey : getKey item = .ok k) (hne : k ≠ []) :
    ∃ m, m ≤ k.length ∧
      (0 < m → found tree.root (k.take m) = true) ∧
      (∀ j, m < j → j ≤ k.length → found tree.root (k.take j) = false) ∧
      (Add tree item).1.root.size = tree.root.size + (k.length - m) ∧
      embeds tree.root (Add tree item).1.root = true ∧
      (Add tree item).1.root.size ≤ tree.root.size + k.length := by
  cases k with
  | nil => exact absurd rfl hne
  | cons c rest =>
    rw [Add_cons tree item c rest hkey]
    have hle := matchLen_le tree.root c rest
    have hsize := ins_size tree.root c rest item
    refine ⟨matchLen tree.root c rest, by simpa using hle, ?_, ?_, ?_,
      embeds_ins tree.root c rest item, ?_⟩
    · intro hm
      obtain ⟨j, hj⟩ := Nat.exists_eq_succ_of_ne_zero (Nat.pos_iff_ne_zero.1 hm)
      rw [hj, List.take_succ_cons, found_cons, find_take_ne_nil _ c rest j (by omega)]
      omega
    · intro j hj hjl
      obtain ⟨j', hj'⟩ := Nat.exists_eq_succ_of_ne_zero (Nat.pos_iff_ne_zero.1 (by omega : 0 < j))
      subst hj'
      simp only [List.length_cons] at hjl
      have h := find_take_ne_nil tree.root c rest j' (by omega)
      rw [List.take_succ_cons]
      cases hf : found tree.root (c :: List.take j' rest) with
      | false => rfl
      | true =>
        have := h.1 ((found_cons _ c _).1 hf)
        omega
    · rw [hsize, List.length_cons]
    · rw [hsize, List.length_cons]
      omega

theorem add_node_growth_witness :
    getKey (Any.str [99, 97, 114]) = .ok [99, 97, 114] ∧ ([99, 97, 114] : List Byte) ≠ [] ∧
      ∃ m, m ≤ ([99, 97, 114] : List Byte).length ∧
        (0 < m → found (AddAll New [Any.str [99, 97, 116]]).root
          (([99, 97, 114] : List Byte).take m) = true) ∧
        (∀ j, m < j → j ≤ ([99, 97, 114] : List Byte).length →
          found (AddAll New [Any.str [99, 97, 116]]).root
            (([99, 97, 114] : List Byte).take j) = false) ∧
        (Add (AddAll New [Any.str [99, 97, 116]]) (Any.str [99, 97, 114])).1.root.size
          = (AddAll New [Any.str [99, 97, 116]]).root.size
            + (([99, 97, 114] : List Byte).length - m) ∧
        embeds (AddAll New [Any.str [99, 97, 116]]).root
          (Add (AddAll New [Any.str [99, 97, 116]]) (Any.str [99, 97, 114])).1.root = true ∧
        (Add (AddAll New [Any.str [99, 97, 116]]) (Any.str [99, 97, 114])).1.root.size
          ≤ (AddAll New [Any.str [99, 97, 116]]).root.size
            + ([99, 97, 114] : List Byte).length :=
  ⟨rfl, by decide,
    add_node_growth (AddAll New [Any.str [99, 97, 116]]) (Any.str [99, 97, 114]) [99, 97, 114]
      rfl (by decide)⟩

/-- C14 (termination).  With a bound on the depth of the recursion, `add`
returns the result of `TST.add` as soon as the bound exceeds
`len(key) - i + size(n)` (so `Add` of a non-empty key returns), and `get` and
`matchPrefix` return theirs as soon as it exceeds `size(n)`.  Each recursive
call of `add` decreases the pair (remaining key length, size of the current
subtree) lexicographically: it moves to a child with a smaller subtree and
the same `i`, or to the `Mid` child with `i + 1`; below a nil link only `Mid`
steps on nil links with increasing `i` follow, the last at
`i = len(key) - 1`. -/
theorem operations_terminate :
    (∀ (n : node) (key : List Byte) (value : Any) (i fuel : Nat),
        key.length - i + n.size < fuel →
        addFuel fuel n key value i = some (add n key value i)) ∧
      (∀ (tree : TST) (item : Any) (c : Byte) (rest : List Byte),
        ∃ n, addFuel ((c :: rest).length + tree.root.size + 1) tree.root (c :: rest) item 0
          = some (.ok n)) ∧
      (∀ (n : node) (key : List Byte) (i fuel : Nat), n.size < fuel →
        getFuel fuel n key i = some (get n key i)) ∧
      (∀ (n : node) (pfx : List Byte) (queue : List Any) (fuel : Nat), n.size < fuel →
        matchPrefixFuel fuel n pfx queue = some (matchPrefix n pfx queue)) ∧
      (∀ (n : node) (key : List Byte) (i : Nat) (n' : node) (i' : Nat),
        addNext n key i = some (n', i') →
        Prod.Lex (fun a b : Nat => a < b) (fun a b : Nat => a < b)
            (key.length - i', n'.size) (key.length - i, n.size) ∧
          ((i' = i ∧ n'.size < n.size) ∨ (i' = i + 1 ∧ i' < key.length))) ∧
      (∀ (key : List Byte) (i : Nat), i < key.length →
        addNext .nil key i = if i < key.length - 1 then some (.nil, i + 1) else none) ∧
      (∀ (fuel : Nat) (n : node) (key : List Byte) (value : Any) (i : Nat),
        match addNext n key i with
        | none => ∃ r, addFuel (fuel + 1) n key value i = some r
        | some (n', i') => ∃ f, addFuel (fuel + 1) n key value i
            = (addFuel fuel n' key value i').map f) := by
  refine ⟨fun n key value i fuel h => addFuel_eq n key value i fuel h, ?_,
    fun n key i fuel h => getFuel_eq n key i fuel h,
    fun n pfx queue fuel h => matchPrefixFuel_eq n pfx queue fuel h,
    fun n key i n' i' h => addNext_decreases n key i n' i' h,
    fun key i hi => addNext_nil key i hi,
    fun fuel n key value i => addFuel_step fuel n key value i⟩
  intro tree item c rest
  refine ⟨ins tree.root c rest item, ?_⟩
  rw [addFuel_eq _ _ _ _ _ (by simp), add_cons]

/-- C16 (the claim fails at an explicit input).  After `Add("cat")`,
`Add("car")`, `Add("tom")`, `Add("c")` the call `MatchPrefix("c")` returns
"c", "cat", "car" in this order, which is not ascending: "cat" comes before
"car". -/
theorem matchPrefix_not_lexicographic :
    MatchPrefix (AddAll New [Any.str [99, 97, 116], Any.str [99, 97, 114],
        Any.str [116, 111, 109], Any.str [99]]) [99]
      = .ok [Any.str [99], Any.str [99, 97, 116], Any.str [99, 97, 114]] ∧
      ¬ List.Pairwise (fun a b => strLess a b = true)
        [([99] : List Byte), [99, 97, 116], [99, 97, 114]] := by
  constructor
  · rw [MatchPrefix_cons, AddAll_root]
    rfl
  · decide

/-- C16 (amended).  For every tree built from `New()` by adding non-empty
string keys and every non-empty prefix `p`, with `S` the node the `get`
traversal returns for `p`: `MatchPrefix(p)` returns the strings in ascending
bytewise lexicographic order if and only if no node below `S.Mid` that
carries a value has a `Left` link.  In particular the order is ascending
when no node below `S.Mid` has a `Left` link, and when the keys are added in
strictly ascending order (no node of the tree has a `Left` link then). -/
theorem matchPrefix_sorted_iff (keys : List (List Byte)) (p : List Byte)
    (_hkeys : ∀ k ∈ keys, k ≠ []) (hp : p ≠ []) :
    ∃ (S : node) (ks : List (List Byte)),
      get (AddAll New (keys.map Any.str)).root p 0 = .ok S ∧
      MatchPrefix (AddAll New (keys.map Any.str)) p = .ok (ks.map Any.str) ∧
      (ks.Pairwise (fun a b => strLess a b = true) ↔ noValueLeft S.Mid = true) ∧
      (noLeft S.Mid = true → ks.Pairwise (fun a b => strLess a b = true)) ∧
      (keys.Pairwise (fun a b => strLess a b = true) →
        noLeft (AddAll New (keys.map Any.str)).root = true ∧
        ks.Pairwise (fun a b => strLess a b = true)) := by
  cases p with
  | nil => exact absurd rfl hp
  | cons c rest =>
    have hr : Reachable (AddAll New (keys.map Any.str)) :=
      Reachable_AddAll New _ Reachable.new
    have ho := Ordered_Reachable _ hr
    have hd := noDead_Reachable _ hr
    have hoS := Ordered_find _ c rest ho
    have hdS := noDead_find _ c rest hd
    have hiff : (((entriesAt (find (AddAll New (keys.map Any.str)).root c rest)).map
          Prod.fst).map (fun s => c :: rest ++ s)).Pairwise (fun a b => strLess a b = true) ↔
        noValueLeft (find (AddAll New (keys.map Any.str)).root c rest).Mid = true := by
      rw [← entriesAt_sorted_iff _ hoS hdS, List.pairwise_map]
      simp only [strLess_append_same]
    refine ⟨find (AddAll New (keys.map Any.str)).root c rest,
      ((entriesAt (find (AddAll New (keys.map Any.str)).root c rest)).map Prod.fst).map
        (fun s => c :: rest ++ s), get_cons _ c rest, ?_, hiff, ?_, ?_⟩
    · rw [MatchPrefix_cons]
      congr 1
      simp only [List.map_map]
      apply List.map_congr_left
      intro e he
      exact entriesAt_AddAll_str keys c rest e he
    · intro hl
      exact hiff.2 (noValueLeft_of_noLeft _ hl)
    · intro hs
      have hl := noLeft_AddAll_sorted keys New rfl rfl rfl hs
        (fun e he => by simp [New, entries] at he)
      exact ⟨hl, hiff.2 (noValueLeft_of_noLeft _ (noLeft_Mid _ (noLeft_find _ c rest hl)))⟩

theorem matchPrefix_sorted_iff_witness :
    (∀ k ∈ [([109] : List Byte), [97], [109, 120], [109, 121]], k ≠ []) ∧
      ([109] : List Byte) ≠ [] ∧
      noLeft (AddAll New ([([109] : List Byte), [97], [109, 120], [109, 121]].map
        Any.str)).root = false ∧
      ∃ (S : node) (ks : List (List Byte)),
        get (AddAll New ([([109] : List Byte), [97], [109, 120], [109, 121]].map
          Any.str)).root [109] 0 = .ok S ∧
        MatchPrefix (AddAll New ([([109] : List Byte), [97], [109, 120], [109, 121]].map
          Any.str)) [109] = .ok (ks.map Any.str) ∧
        (ks.Pairwise (fun a b => strLess a b = true) ↔ noValueLeft S.Mid = true) ∧
        (noLeft S.Mid = true → ks.Pairwise (fun a b => strLess a b = true)) ∧
        ([([109] : List Byte), [97], [109, 120], [109, 121]].Pairwise
            (fun a b => strLess a b = true) →
          noLeft (AddAll New ([([109] : List Byte), [97], [109, 120], [109, 121]].map
            Any.str)).root = true ∧
          ks.Pairwise (fun a b => strLess a b = true)) :=
  ⟨by decide, by decide, by rw [AddAll_root]; rfl,
    matchPrefix_sorted_iff [[109], [97], [109, 120], [109, 121]] [109]
      (by decide) (by decide)⟩

end tst
